import Mathlib

/-!
The shape viewer of sb-editor, `src/commands/viewer.js`.

A shallow embedding of the shape viewer command: the instruction extractor
(`extractShapes`), the grid compositor (`renderShapes`) and the command entry
points (`execute`, `watcher`), followed by the properties proved about them.

Conventions of the embedding.

* A JavaScript string is a list of characters (`Str`); an array is a list.
* A function that may throw returns `Except Error _`.
* The collaborators that are imported from other modules (`handleInstruction`,
  `renderShape`, the configured `viewerAccessRoles`, the channel's `send`) and
  the platform's `toLowerCase` are fields of an environment `Env`.
* Calls of collaborators that a caller can observe are recorded, in order, in
  the `trace` of an `Outcome`.
-/

namespace Viewer

/-- A JavaScript string, as the list of its characters. -/
abbrev Str := List Char

/-- A thrown JavaScript error: its `name` and its `message`. -/
structure Error where
  name : String
  message : String
deriving DecidableEq, Repr

/-- The value of `new Error(message)`. -/
def Error.new (message : String) : Error := ⟨"Error", message⟩

/-- The error thrown at line 31. -/
def limitOfModifiers : Error := Error.new "Limit of modifiers reached"

/-- The error thrown at line 73. -/
def directCall : Error := Error.new "You are not supposed to directly call this command"

/-- The `TypeError` the engine raises at line 76 when `msg.member` is `null`. -/
def nullMember : Error := ⟨"TypeError", "Cannot read properties of null (reading 'roles')"⟩

/-- The canvas of `renderShapes`: its dimensions and the `drawImage` calls made on
it, oldest first. The PNG buffer returned by `toBuffer` is a function of this
state, so the canvas stands for the buffer as well. -/
structure Canvas (τ : Type) where
  width : Nat
  height : Nat
  draws : List (τ × Nat × Nat)

/-- The call `createCanvas(width, height)`. -/
def createCanvas {τ : Type} (width height : Nat) : Canvas τ := ⟨width, height, []⟩

/-- The call `ctx.drawImage(image, x, y)`. -/
def Canvas.drawImage {τ : Type} (canvas : Canvas τ) (image : τ) (x y : Nat) : Canvas τ :=
  { canvas with draws := canvas.draws ++ [(image, x, y)] }

/-- The collaborators of the module. `σ` is the type of shape descriptors, `τ` the
type of rendered tiles. -/
structure Env (σ τ : Type) where
  handleInstruction : Str → List Str → Except Error (List σ)
  renderShape : σ → Nat → Except Error τ
  viewerAccessRoles : List String
  toLowerCase : Str → Str
  send : Canvas τ → Except Error Unit

/-- The observable calls made while a message is processed. -/
inductive Event (σ τ : Type) where
  | handleInstruction (shortKey : Str) (flags : List Str)
  | renderShapes (shapes : List σ)
  | send (image : Canvas τ)
  | log (err : Error)

/-- What a call leaves behind: the calls it made and its result or thrown error. -/
structure Outcome (σ τ α : Type) where
  trace : List (Event σ τ)
  result : Except Error α

/-- The method `String.prototype.split` with a one-character separator. -/
def split (s : Str) (sep : Char) : List Str :=
  match s with
  | [] => [[]]
  | c :: cs =>
    if c = sep then [] :: split cs sep
    else
      match split cs sep with
      | [] => [[c]]
      | p :: ps => (c :: p) :: ps

/-- The method `String.prototype.indexOf` with a one-character needle: the index
of its first occurrence, `-1` when there is none. -/
def indexOf (s : Str) (c : Char) : Int :=
  match s with
  | [] => -1
  | d :: ds =>
    if d = c then 0
    else
      let i := indexOf ds c
      if i = -1 then -1 else i + 1

/-- The method `slice(start, stop)` of strings and arrays, negative indices
counting from the end. -/
def slice {α : Type} (xs : List α) (start stop : Int) : List α :=
  let len : Int := xs.length
  let lo : Int := if start < 0 then max (len + start) 0 else min start len
  let hi : Int := if stop < 0 then max (len + stop) 0 else min stop len
  (xs.drop lo.toNat).take (hi - lo).toNat

/-- The method `String.prototype.startsWith`. -/
def startsWith (s pre : Str) : Bool :=
  match pre, s with
  | [], _ => true
  | _ :: _, [] => false
  | p :: ps, c :: cs => p == c && startsWith cs ps

/-- The loop of `extractShapes` (lines 20 to 35) over the remaining `parts`, with
the `shapes` pushed and the builder calls made so far. `split` never returns an
empty array, so the default of `headD`, standing for the `undefined` of `shift`
on an empty array, is never taken. -/
def extractLoop {σ τ : Type} (env : Env σ τ) :
    List Str → List σ → List (Event σ τ) → Outcome σ τ (List σ)
  | [], shapes, trace => ⟨trace, .ok shapes⟩
  | part :: parts, shapes, trace =>
    let endIndex := indexOf part '}'
    if endIndex = -1 then extractLoop env parts shapes trace
    else
      let instruction := slice part 0 endIndex
      let flags := split instruction '+'
      let shortKey := flags.headD []
      let flags := flags.drop 1
      if flags.length > 10 then ⟨trace, .error limitOfModifiers⟩
      else
        match env.handleInstruction shortKey flags with
        | .error err => ⟨trace ++ [.handleInstruction shortKey flags], .error err⟩
        | .ok built =>
          extractLoop env parts (shapes ++ built) (trace ++ [.handleInstruction shortKey flags])

/-- The function `extractShapes` (lines 12 to 38). -/
def extractShapes {σ τ : Type} (env : Env σ τ) (message : Str) : Outcome σ τ (List σ) :=
  let parts := slice (split message '{') 1 (split message '{').length
  if parts.length == 0 then ⟨[], .ok []⟩
  else extractLoop env parts [] []

/-- The constant `shapeSize` of `renderShapes`. -/
def shapeSize : Nat := 56

/-- The value of `columnsCount` for `n` shapes: `Math.min(n, 8)`. -/
def columnsCount (n : Nat) : Nat := min n 8

/-- The value of `rowsCount` for `n` shapes: `Math.ceil(n / columnsCount)`, computed
on naturals. For `n = 0` the source divides zero by zero and gets `NaN`; here the
value is `0`, and no property below relies on it. -/
def rowsCount (n : Nat) : Nat := (n + columnsCount n - 1) / columnsCount n

/-- The value of `imageWidth` for `n` shapes. -/
def imageWidth (n : Nat) : Nat := shapeSize * columnsCount n

/-- The value of `imageHeight` for `n` shapes. -/
def imageHeight (n : Nat) : Nat := shapeSize * rowsCount n

/-- The loop of `renderShapes` (lines 56 to 62) from `index` on, over the shapes
not yet drawn. -/
def renderLoop {σ τ : Type} (env : Env σ τ) (columns : Nat) :
    Nat → List σ → Canvas τ → Except Error (Canvas τ)
  | _, [], canvas => .ok canvas
  | index, shape :: shapes, canvas =>
    match env.renderShape shape shapeSize with
    | .error err => .error err
    | .ok shapeImage =>
      let x := (index % columns) * shapeSize
      let y := (index / columns) * shapeSize
      renderLoop env columns (index + 1) shapes (canvas.drawImage shapeImage x y)

/-- The function `renderShapes` (lines 45 to 66). -/
def renderShapes {σ τ : Type} (env : Env σ τ) (shapes : List σ) : Except Error (Canvas τ) :=
  renderLoop env (columnsCount shapes.length) 0 shapes
    (createCanvas (imageWidth shapes.length) (imageHeight shapes.length))

/-- The part of a Discord message the module reads. `member` is `none` for a
message outside a guild, otherwise the ids of the roles of its author. -/
structure Message where
  content : Str
  authorBot : Bool
  member : Option (List String)

/-- The test of line 72: `msg.content.toLowerCase().startsWith("sbe:viewer")`. -/
def isDirectCall {σ τ : Type} (env : Env σ τ) (msg : Message) : Bool :=
  startsWith (env.toLowerCase msg.content) "sbe:viewer".toList

/-- The test of line 77: `callerRoles.some((role) => viewerAccessRoles.includes(role.id))`. -/
def hasAccess {σ τ : Type} (env : Env σ τ) (callerRoles : List String) : Bool :=
  callerRoles.any (fun role => env.viewerAccessRoles.contains role)

/-- The function `execute` (lines 71 to 91). -/
def execute {σ τ : Type} (env : Env σ τ) (msg : Message) : Outcome σ τ Unit :=
  if isDirectCall env msg then ⟨[], .error directCall⟩
  else
    match msg.member with
    | none => ⟨[], .error nullMember⟩
    | some callerRoles =>
      if !hasAccess env callerRoles then ⟨[], .ok ()⟩
      else
        let extracted := extractShapes env msg.content
        match extracted.result with
        | .error err => ⟨extracted.trace, .error err⟩
        | .ok all =>
          let shapes := slice all 0 64
          if shapes.length == 0 then ⟨extracted.trace, .ok ()⟩
          else
            match renderShapes env shapes with
            | .error err => ⟨extracted.trace ++ [.renderShapes shapes], .error err⟩
            | .ok image =>
              ⟨extracted.trace ++ [.renderShapes shapes, .send image], env.send image⟩

/-- The function `watcher` (lines 97 to 107). -/
def watcher {σ τ : Type} (env : Env σ τ) (msg : Message) : Outcome σ τ Unit :=
  if msg.authorBot then ⟨[], .ok ()⟩
  else if !msg.content.contains '{' then ⟨[], .ok ()⟩
  else
    let run := execute env msg
    match run.result with
    | .ok _ => ⟨run.trace, .ok ()⟩
    | .error err => ⟨run.trace ++ [.log err], .ok ()⟩

/-! ## The extractor as the specification describes it -/

/-- The pieces of `s` that follow an occurrence of `sep`: each is the text between
one `sep` and the next `sep` or the end of `s`. -/
def pieces (sep : Char) : Str → List Str
  | [] => []
  | c :: cs =>
    if c = sep then cs.takeWhile (fun d => d != sep) :: pieces sep cs
    else pieces sep cs

/-- The fragments of a message: the text between one start marker and the next
start marker or the end of the message. -/
def fragments (message : Str) : List Str := pieces '{' message

/-- A fragment is terminated when it contains an end marker. -/
def terminated (fragment : Str) : Bool := fragment.contains '}'

/-- The instruction body of a terminated fragment: the text before its first end
marker. -/
def body (fragment : Str) : Str := fragment.takeWhile (fun d => d != '}')

/-- The ShapeKey of an instruction body: the part before its first `+`. -/
def shapeKey (instruction : Str) : Str := instruction.takeWhile (fun d => d != '+')

/-- The ModifierList of an instruction body: the parts that follow a `+`. -/
def modifierList (instruction : Str) : List Str := pieces '+' instruction

/-- The token of a fragment: its key and modifiers when it is terminated. -/
def tokenOf (fragment : Str) : Option (Str × List Str) :=
  if terminated fragment then some (shapeKey (body fragment), modifierList (body fragment))
  else none

/-- The terminated tokens of a message, left to right. -/
def tokens (message : Str) : List (Str × List Str) := (fragments message).filterMap tokenOf

/-- Steps 4 and 5 of the specification over a list of tokens: the modifier limit,
then the builder, appending what it returns. -/
def runTokens {σ τ : Type} (env : Env σ τ) :
    List (Str × List Str) → List σ → List (Event σ τ) → Outcome σ τ (List σ)
  | [], shapes, trace => ⟨trace, .ok shapes⟩
  | token :: rest, shapes, trace =>
    if token.2.length > 10 then ⟨trace, .error limitOfModifiers⟩
    else
      match env.handleInstruction token.1 token.2 with
      | .error err => ⟨trace ++ [.handleInstruction token.1 token.2], .error err⟩
      | .ok built =>
        runTokens env rest (shapes ++ built) (trace ++ [.handleInstruction token.1 token.2])

/-- The builder call made for a token. -/
def callOf {σ τ : Type} (token : Str × List Str) : Event σ τ :=
  .handleInstruction token.1 token.2

/-- A token is accepted when it is within the modifier limit and the builder
returns `built` for it. -/
def Accepted {σ τ : Type} (env : Env σ τ) (token : Str × List Str) (built : List σ) : Prop :=
  token.2.length ≤ 10 ∧ env.handleInstruction token.1 token.2 = .ok built

/-! ## Sample collaborators, for concrete instances -/

/-- A builder that returns the key followed by the modifiers, a renderer that
pairs the descriptor with the tile size, one access role, ASCII lower-casing. -/
def sampleEnv : Env Str (Str × Nat) where
  handleInstruction := fun shortKey flags => .ok (shortKey :: flags)
  renderShape := fun shape size => .ok (shape, size)
  viewerAccessRoles := ["viewer"]
  toLowerCase := fun s => s.map Char.toLower
  send := fun _ => .ok ()

/-- The message made of one instruction: `instruction` between a start and an end
marker. -/
def braces (instruction : String) : Str := '{' :: instruction.toList ++ ['}']

/-- A message with one token of exactly ten modifiers. -/
def tenModifiers : Str := braces "k+a+b+c+d+e+f+g+h+i+j"

/-- A message with a valid token followed by a token of exactly eleven modifiers. -/
def elevenModifiers : Str := braces "v" ++ braces "k+a+b+c+d+e+f+g+h+i+j+l"

/-- The message of the specification's parsing example. -/
def keyABC : Str := braces "key+a+b+c"

/-- The text `post` is empty or begins with `sep`: a fragment that stands before
it ends where `post` starts. -/
def StartsAt (sep : Char) (post : Str) : Prop := post = [] ∨ ∃ rest, post = sep :: rest

/-- The builder arguments of a terminated fragment, as an event. -/
def callOfFragment {σ τ : Type} (fragment : Str) : Event σ τ :=
  .handleInstruction (shapeKey (body fragment)) (modifierList (body fragment))

/-- The message `a {bad b {valid}` of the specification's skipping example. -/
def badThenValid : Str := "a ".toList ++ '{' :: ("bad b ".toList ++ braces "valid")

/-- The message `{a{b}c}`, with nested start markers. -/
def nested : Str := '{' :: 'a' :: (braces "b" ++ "c\x7d".toList)

/-- A message whose unterminated fragment holds twelve `+` characters. -/
def plusesThenValid : Str := '{' :: ("k++++++++++++".toList ++ braces "valid+x")

/-- The `drawImage` call for the tile at position `index` of a grid of `columns`
columns: the tile, then `x` and `y`. -/
def drawAt {τ : Type} (columns index : Nat) (tile : τ) : τ × Nat × Nat :=
  (tile, (index % columns) * shapeSize, (index / columns) * shapeSize)

/-- The tile `tile` is what the renderer returns for `shape`. -/
def Renders {σ τ : Type} (env : Env σ τ) (shape : σ) (tile : τ) : Prop :=
  env.renderShape shape shapeSize = .ok tile

/-- A list of `n` descriptors `a`, `b`, `c` and so on. -/
def lettered (n : Nat) : List Str := (List.range n).map (fun i => [Char.ofNat (97 + i)])

/-- A message of ten tokens with nine modifiers each: the sample builder returns
a hundred descriptors for it. -/
def hundred : Str := (List.replicate 10 (braces "k+a+b+c+d+e+f+g+h+i")).flatten

/-- The hundred descriptors the sample builder returns for `hundred`. -/
def hundredShapes : List Str :=
  (List.replicate 10 (["k", "a", "b", "c", "d", "e", "f", "g", "h", "i"].map String.toList)).flatten

/-- A guild message of a member with the sample access role. -/
def fromViewer (content : Str) : Message := ⟨content, false, some ["viewer"]⟩

/-- A message whose only fragment has no end marker. -/
def unterminatedOnly : Str := "look ".toList ++ '{' :: "bad+x".toList

/-- The draw offsets of a canvas: the `(x, y)` of its `drawImage` calls, oldest
first. -/
def Canvas.offsets {τ : Type} (canvas : Canvas τ) : List (Nat × Nat) :=
  canvas.draws.map (fun draw => draw.2)

/-- The offset of the cell of index `i` in a grid of `columns` columns. -/
def cellOffset (columns i : Nat) : Nat × Nat :=
  ((i % columns) * shapeSize, (i / columns) * shapeSize)

/-- The message `{k+++++++++++}`: a key and eleven `+`. -/
def elevenPluses : Str := braces "k+++++++++++"

/-- A direct call of the command, in mixed case, from outside a guild. -/
def directMessage : Message := ⟨"SBE:Viewer ".toList ++ braces "a", false, none⟩

/-! ## Lemmas on the string primitives -/

theorem split_eq (s : Str) (sep : Char) :
    split s sep = s.takeWhile (fun d => d != sep) :: pieces sep s := by
  induction s with
  | nil => rfl
  | cons c cs ih =>
    by_cases h : c = sep
    · simp [split, pieces, h, ih]
    · simp [split, pieces, h, ih]

theorem split_ne_nil (s : Str) (sep : Char) : split s sep ≠ [] := by
  rw [split_eq]; simp

theorem indexOf_eq (s : Str) (c : Char) :
    indexOf s c = if c ∈ s then ((s.takeWhile (fun d => d != c)).length : Int) else -1 := by
  induction s with
  | nil => simp [indexOf]
  | cons d ds ih =>
    by_cases h : d = c
    · simp [indexOf, h]
    · have h2 : ¬ c = d := fun e => h e.symm
      by_cases hm : c ∈ ds
      · simp only [indexOf, h, ih, hm, if_true, if_false, List.mem_cons, h2, false_or]
        have : ((List.takeWhile (fun d => d != c) ds).length : Int) ≠ -1 := by omega
        simp [this, h]
      · simp [indexOf, h, ih, hm, h2]

theorem take_length_takeWhile {α : Type} (p : α → Bool) (xs : List α) :
    xs.take (xs.takeWhile p).length = xs.takeWhile p := by
  induction xs with
  | nil => rfl
  | cons x xs ih =>
    by_cases h : p x
    · simp [List.takeWhile_cons, h, ih]
    · simp [List.takeWhile_cons, h]

theorem slice_zero {α : Type} (xs : List α) (k : Nat) : slice xs 0 (k : Int) = xs.take k := by
  have h1 : ¬ ((k : Int) < 0) := by omega
  simp only [slice, lt_self_iff_false, if_false, h1]
  rcases Nat.le_total k xs.length with h | h
  · have : min (k : Int) (xs.length : Int) = k := by omega
    simp [this]
  · have : min (k : Int) (xs.length : Int) = xs.length := by omega
    simp [this, List.take_of_length_le h]

theorem slice_one_length {α : Type} (xs : List α) : slice xs 1 xs.length = xs.drop 1 := by
  cases xs with
  | nil => simp [slice]
  | cons x xs =>
    have h1 : min (1 : Int) ((x :: xs).length : Int) = 1 := by
      simp only [List.length_cons]; push_cast; omega
    have h2 : ¬ (((x :: xs).length : Int) < 0) := by omega
    simp only [slice, h2, if_false, h1, min_self]
    simp

theorem slice_indexOf (part : Str) (h : '}' ∈ part) :
    slice part 0 (indexOf part '}') = body part := by
  rw [indexOf_eq, if_pos h, slice_zero, take_length_takeWhile]; rfl

/-! ## The source loop against the specification's steps -/

theorem indexOf_of_not_mem (part : Str) (c : Char) (h : c ∉ part) : indexOf part c = -1 := by
  rw [indexOf_eq, if_neg h]

theorem indexOf_of_mem (part : Str) (c : Char) (h : c ∈ part) : indexOf part c ≠ -1 := by
  rw [indexOf_eq, if_pos h]; omega

theorem tokenOf_of_not_mem (part : Str) (h : '}' ∉ part) : tokenOf part = none := by
  simp [tokenOf, terminated, h]

theorem tokenOf_of_mem (part : Str) (h : '}' ∈ part) :
    tokenOf part = some (shapeKey (body part), modifierList (body part)) := by
  simp [tokenOf, terminated, h]

theorem extractLoop_eq {σ τ : Type} (env : Env σ τ) (parts : List Str) :
    ∀ (shapes : List σ) (trace : List (Event σ τ)),
      extractLoop env parts shapes trace
        = runTokens env (parts.filterMap tokenOf) shapes trace := by
  induction parts with
  | nil => intro shapes trace; rfl
  | cons part parts ih =>
    intro shapes trace
    by_cases h : '}' ∈ part
    · have hs : split (body part) '+' = shapeKey (body part) :: modifierList (body part) :=
        split_eq _ _
      simp only [extractLoop, indexOf_of_mem part _ h, if_false, slice_indexOf part h, hs,
        List.headD_cons, List.drop_one, List.tail_cons, List.filterMap_cons,
        tokenOf_of_mem part h, runTokens]
      split
      · rfl
      · split <;> simp_all
    · simp only [extractLoop, indexOf_of_not_mem part _ h, if_true, List.filterMap_cons,
        tokenOf_of_not_mem part h]
      exact ih shapes trace

theorem parts_eq (message : Str) :
    slice (split message '{') 1 (split message '{').length = fragments message := by
  rw [slice_one_length, split_eq]; rfl

theorem extractShapes_eq {σ τ : Type} (env : Env σ τ) (message : Str) :
    extractShapes env message = runTokens env (tokens message) [] [] := by
  unfold extractShapes
  simp only [parts_eq]
  split
  · rename_i h
    have h0 : fragments message = [] := by simpa using h
    simp [tokens, h0, runTokens]
  · rw [extractLoop_eq]; rfl

/-! ## Properties of the steps over a token list -/

theorem runTokens_ok_iff {σ τ : Type} (env : Env σ τ) (toks : List (Str × List Str)) :
    ∀ (shapes : List σ) (trace : List (Event σ τ)) (out : List σ),
      (runTokens env toks shapes trace).result = .ok out
        ↔ ∃ rs, List.Forall₂ (Accepted env) toks rs ∧ out = shapes ++ rs.flatten := by
  induction toks with
  | nil =>
    intro shapes trace out
    simp only [runTokens, List.forall₂_nil_left_iff]
    constructor
    · intro h; injection h with h; exact ⟨[], rfl, by simp [h]⟩
    · rintro ⟨rs, rfl, h⟩; simp [h]
  | cons tok rest ih =>
    intro shapes trace out
    simp only [runTokens, List.forall₂_cons_left_iff]
    by_cases hl : tok.2.length > 10
    · simp only [hl, if_true]
      constructor
      · intro h; cases h
      · rintro ⟨rs, ⟨r, rs1, hacc, -, -⟩, -⟩
        exact absurd hacc.1 (by omega)
    · simp only [hl, if_false]
      cases hb : env.handleInstruction tok.1 tok.2 with
      | error err =>
        constructor
        · intro h; cases h
        · rintro ⟨rs, ⟨r, rs1, hacc, -, -⟩, -⟩
          have := hacc.2; rw [hb] at this; cases this
      | ok built =>
        simp only [ih]
        constructor
        · rintro ⟨rs, hrs, hout⟩
          exact ⟨built :: rs, ⟨built, rs, ⟨by omega, hb⟩, hrs, rfl⟩, by simp [hout]⟩
        · rintro ⟨rs, ⟨r, rs1, hacc, hrs, rfl⟩, hout⟩
          have hr : built = r := by
            have := hacc.2; rw [hb] at this; injection this
          subst hr
          exact ⟨rs1, hrs, by simp [hout]⟩

theorem runTokens_trace {σ τ : Type} (env : Env σ τ) (toks : List (Str × List Str)) :
    ∀ (shapes : List σ) (trace : List (Event σ τ)),
      ∃ k, k ≤ toks.length ∧
        (runTokens env toks shapes trace).trace = trace ++ (toks.take k).map callOf ∧
        (∀ out, (runTokens env toks shapes trace).result = .ok out → k = toks.length) := by
  induction toks with
  | nil => intro shapes trace; exact ⟨0, by simp [runTokens]⟩
  | cons tok rest ih =>
    intro shapes trace
    simp only [runTokens]
    by_cases hl : tok.2.length > 10
    · refine ⟨0, by simp, by simp [hl], ?_⟩
      intro out h; simp [hl] at h
    · simp only [hl, if_false]
      cases hb : env.handleInstruction tok.1 tok.2 with
      | error err =>
        refine ⟨1, by simp, by simp [callOf], ?_⟩
        intro out h; cases h
      | ok built =>
        obtain ⟨k, hk, htr, hok⟩ := ih (shapes ++ built) (trace ++ [callOf tok])
        refine ⟨k + 1, by simpa using hk, ?_, ?_⟩
        · simp only [callOf] at htr
          simp [htr, callOf]
        · intro out h
          have := hok out (by simpa [callOf] using h)
          simp [this]

theorem runTokens_limit_iff {σ τ : Type} (env : Env σ τ)
    (total : ∀ shortKey flags, ∃ built, env.handleInstruction shortKey flags = .ok built)
    (toks : List (Str × List Str)) :
    ∀ (shapes : List σ) (trace : List (Event σ τ)),
      ((runTokens env toks shapes trace).result = .error limitOfModifiers
          ↔ ∃ tok ∈ toks, 10 < tok.2.length) ∧
      ((∀ tok ∈ toks, tok.2.length ≤ 10) →
          ∃ out, (runTokens env toks shapes trace).result = .ok out) := by
  induction toks with
  | nil => intro shapes trace; simp [runTokens]
  | cons tok rest ih =>
    intro shapes trace
    simp only [runTokens]
    by_cases hl : tok.2.length > 10
    · simp only [hl, if_true, true_iff]
      exact ⟨⟨tok, by simp, hl⟩, fun h => absurd (h tok (by simp)) (by omega)⟩
    · simp only [hl, if_false]
      obtain ⟨built, hb⟩ := total tok.1 tok.2
      simp only [hb]
      obtain ⟨h1, h2⟩ := ih (shapes ++ built) (trace ++ [Event.handleInstruction tok.1 tok.2])
      constructor
      · rw [h1]
        constructor
        · rintro ⟨t, ht, hlen⟩; exact ⟨t, by simp [ht], hlen⟩
        · rintro ⟨t, ht, hlen⟩
          rcases List.mem_cons.1 ht with rfl | ht
          · exact absurd hlen hl
          · exact ⟨t, ht, hlen⟩
      · intro h; exact h2 (fun t ht => h t (by simp [ht]))

theorem extractShapes_ok_iff {σ τ : Type} (env : Env σ τ) (message : Str) (out : List σ) :
    (extractShapes env message).result = .ok out
      ↔ ∃ rs, List.Forall₂ (Accepted env) (tokens message) rs ∧ out = rs.flatten := by
  rw [extractShapes_eq, runTokens_ok_iff]; simp

theorem tokens_tenModifiers :
    tokens tenModifiers
      = [("k".toList, ["a", "b", "c", "d", "e", "f", "g", "h", "i", "j"].map String.toList)] := by
  decide

theorem tokens_elevenModifiers :
    tokens elevenModifiers
      = [("v".toList, []),
         ("k".toList,
          ["a", "b", "c", "d", "e", "f", "g", "h", "i", "j", "l"].map String.toList)] := by
  decide

theorem tokens_keyABC :
    tokens keyABC = [("key".toList, ["a".toList, "b".toList, "c".toList])] := by
  decide

theorem pieces_append_of_not_mem (sep : Char) (pre rest : Str) (h : sep ∉ pre) :
    pieces sep (pre ++ rest) = pieces sep rest := by
  induction pre with
  | nil => rfl
  | cons c cs ih =>
    have hc : ¬ c = sep := fun e => h (by simp [e])
    have hcs : sep ∉ cs := fun e => h (by simp [e])
    simp [pieces, hc, ih hcs]

theorem takeWhile_of_not_mem (sep : Char) (s : Str) (h : sep ∉ s) :
    s.takeWhile (fun d => d != sep) = s := by
  rw [List.takeWhile_eq_self_iff]
  intro d hd
  have : ¬ d = sep := fun e => h (e ▸ hd)
  simp [this]

theorem not_mem_takeWhile (sep : Char) (s : Str) : sep ∉ s.takeWhile (fun d => d != sep) := by
  intro h
  have := List.mem_takeWhile_imp h
  simp at this

theorem not_mem_of_mem_pieces (sep : Char) (s piece : Str) (h : piece ∈ pieces sep s) :
    sep ∉ piece := by
  induction s with
  | nil => simp [pieces] at h
  | cons c cs ih =>
    by_cases hc : c = sep
    · simp only [pieces, hc, if_true, List.mem_cons] at h
      rcases h with rfl | h
      · exact not_mem_takeWhile _ _
      · exact ih h
    · simp only [pieces, hc, if_false] at h
      exact ih h

theorem intercalate_cons_cons (sep : Str) (c : Char) (t : Str) (ps : List Str) :
    sep.intercalate ((c :: t) :: ps) = c :: sep.intercalate (t :: ps) := by
  cases ps <;> simp [List.intercalate, List.intersperse]

theorem intercalate_pieces (sep : Char) (s : Str) :
    [sep].intercalate (s.takeWhile (fun d => d != sep) :: pieces sep s) = s := by
  induction s with
  | nil => simp [pieces, List.intercalate, List.intersperse]
  | cons c cs ih =>
    by_cases hc : c = sep
    · have : [sep].intercalate
          ([] :: cs.takeWhile (fun d => d != sep) :: pieces sep cs)
          = sep :: [sep].intercalate (cs.takeWhile (fun d => d != sep) :: pieces sep cs) := by
        simp [List.intercalate, List.intersperse]
      simp [pieces, hc, this, ih]
    · simp [pieces, hc, List.takeWhile_cons, intercalate_cons_cons, ih]

theorem tokens_eq_map (message : Str) :
    tokens message
      = ((fragments message).filter terminated).map
          (fun f => (shapeKey (body f), modifierList (body f))) := by
  unfold tokens
  induction fragments message with
  | nil => rfl
  | cons f fs ih =>
    by_cases h : terminated f
    · simp [List.filterMap_cons, List.filter_cons, tokenOf, h, ih]
    · simp [List.filterMap_cons, List.filter_cons, tokenOf, h, ih]

theorem takeWhile_append_startsAt (sep : Char) (cs post : Str) (h : StartsAt sep post) :
    (cs ++ post).takeWhile (fun d => d != sep) = cs.takeWhile (fun d => d != sep) := by
  induction cs with
  | nil =>
    rcases h with rfl | ⟨rest, rfl⟩
    · rfl
    · simp
  | cons c cs ih =>
    by_cases hc : c = sep
    · simp [List.takeWhile_cons, hc]
    · simp [List.takeWhile_cons, hc, ih]

theorem pieces_append_startsAt (sep : Char) (pre post : Str) (h : StartsAt sep post) :
    pieces sep (pre ++ post) = pieces sep pre ++ pieces sep post := by
  induction pre with
  | nil => rfl
  | cons c cs ih =>
    by_cases hc : c = sep
    · simp [pieces, hc, ih, takeWhile_append_startsAt sep cs post h]
    · simp [pieces, hc, ih]

theorem fragments_append (pre post : Str) (h : StartsAt '{' post) :
    fragments (pre ++ post) = fragments pre ++ fragments post :=
  pieces_append_startsAt _ _ _ h

theorem fragments_insert (pre frag post : Str) (hfrag : '{' ∉ frag)
    (hpost : StartsAt '{' post) :
    fragments (pre ++ '{' :: (frag ++ post)) = fragments pre ++ frag :: fragments post := by
  rw [fragments_append pre _ (Or.inr ⟨_, rfl⟩)]
  congr 1
  show pieces '{' ('{' :: (frag ++ post)) = frag :: pieces '{' post
  simp only [pieces, if_true]
  rw [takeWhile_append_startsAt _ _ _ hpost, takeWhile_of_not_mem _ _ hfrag,
    pieces_append_of_not_mem _ _ _ hfrag]

theorem body_append (b junk : Str) (hb : '}' ∉ b) : body (b ++ '}' :: junk) = b := by
  unfold body
  rw [takeWhile_append_startsAt _ _ _ (Or.inr ⟨junk, rfl⟩), takeWhile_of_not_mem _ _ hb]

theorem tokens_badThenValid : tokens badThenValid = [("valid".toList, [])] := by decide

theorem tokens_nested : tokens nested = [("b".toList, [])] := by decide

theorem tokens_plusesThenValid :
    tokens plusesThenValid = [("valid".toList, ["x".toList])] := by decide

theorem runTokens_single {σ τ : Type} (env : Env σ τ) (shortKey : Str) (flags : List Str)
    (hlen : flags.length ≤ 10) :
    (runTokens env [(shortKey, flags)] [] []).result = env.handleInstruction shortKey flags ∧
    (runTokens env [(shortKey, flags)] [] []).trace = [.handleInstruction shortKey flags] := by
  have hl : ¬ flags.length > 10 := by omega
  simp only [runTokens, hl, if_false]
  cases env.handleInstruction shortKey flags <;> simp

/-! ## The instruction extractor -/

/-- C1. Assuming the shape builder never fails, `extractShapes` throws the
"Limit of modifiers reached" error exactly when some terminated token has more
than 10 modifiers, and returns descriptors when no token has; a thrown result
carries no descriptors. A token of exactly 10 modifiers is accepted and the
builder's descriptors are returned; a token of exactly 11 modifiers is rejected
and nothing is returned, not even for the valid token before it. -/
theorem extractShapes_limit_iff {σ τ : Type} (env : Env σ τ) (message : Str)
    (total : ∀ shortKey flags, ∃ built, env.handleInstruction shortKey flags = .ok built) :
    ((extractShapes env message).result = .error limitOfModifiers
        ↔ ∃ tok ∈ tokens message, 10 < tok.2.length) ∧
    ((∀ tok ∈ tokens message, tok.2.length ≤ 10) →
        ∃ out, (extractShapes env message).result = .ok out) ∧
    ((extractShapes env message).result = .error limitOfModifiers →
        ∀ out, (extractShapes env message).result ≠ .ok out) ∧
    (∃ built,
        env.handleInstruction "k".toList
            (["a", "b", "c", "d", "e", "f", "g", "h", "i", "j"].map String.toList) = .ok built ∧
        (extractShapes env tenModifiers).result = .ok built) ∧
    (extractShapes env elevenModifiers).result = .error limitOfModifiers ∧
    (∀ out, (extractShapes env elevenModifiers).result ≠ .ok out) := by
  have key := fun msg => runTokens_limit_iff env total (tokens msg) [] []
  have eleven : (extractShapes env elevenModifiers).result = .error limitOfModifiers := by
    rw [extractShapes_eq, (key elevenModifiers).1, tokens_elevenModifiers]
    exact ⟨_, List.mem_cons_of_mem _ (List.mem_singleton_self _), by decide⟩
  refine ⟨?_, ?_, ?_, ?_, eleven, ?_⟩
  · rw [extractShapes_eq]; exact (key message).1
  · rw [extractShapes_eq]; exact (key message).2
  · intro h out h2; rw [h] at h2; cases h2
  · obtain ⟨built, hb⟩ := total "k".toList
      (["a", "b", "c", "d", "e", "f", "g", "h", "i", "j"].map String.toList)
    refine ⟨built, hb, ?_⟩
    rw [extractShapes_ok_iff, tokens_tenModifiers]
    exact ⟨[built], List.Forall₂.cons ⟨by decide, hb⟩ List.Forall₂.nil, by simp⟩
  · intro out h2; rw [eleven] at h2; cases h2

/-- An instance of C1: the sample builder never fails, and the limit is decided on
the message with eleven modifiers. -/
theorem extractShapes_limit_iff_witness :
    (∀ shortKey flags, ∃ built, sampleEnv.handleInstruction shortKey flags = .ok built) ∧
    (extractShapes sampleEnv elevenModifiers).result = .error limitOfModifiers ∧
    (extractShapes sampleEnv tenModifiers).result
      = .ok (["k", "a", "b", "c", "d", "e", "f", "g", "h", "i", "j"].map String.toList) :=
  ⟨fun _ _ => ⟨_, rfl⟩,
   (extractShapes_limit_iff sampleEnv elevenModifiers (fun _ _ => ⟨_, rfl⟩)).2.2.2.2.1,
   rfl⟩

/-- C2. `extractShapes` succeeds exactly when every terminated token is within the
modifier limit and accepted by the builder, and its result is then the
concatenation, in the left-to-right order of the tokens, of the lists the
builder returned for them (each list kept whole and in its own order); the
builder was called once per token in that order, and text before the first
start marker changes nothing. -/
theorem extractShapes_concat {σ τ : Type} (env : Env σ τ) (message : Str) :
    (∀ out, (extractShapes env message).result = .ok out
        ↔ ∃ rs, List.Forall₂
            (fun tok built =>
              tok.2.length ≤ 10 ∧ env.handleInstruction tok.1 tok.2 = .ok built)
            (tokens message) rs ∧ out = rs.flatten) ∧
    (∀ out, (extractShapes env message).result = .ok out →
        (extractShapes env message).trace = (tokens message).map callOf) ∧
    (∀ pre : Str, '{' ∉ pre → extractShapes env (pre ++ message) = extractShapes env message) := by
  refine ⟨fun out => extractShapes_ok_iff env message out, ?_, ?_⟩
  · intro out h
    rw [extractShapes_eq] at h ⊢
    obtain ⟨k, -, htr, hk⟩ := runTokens_trace env (tokens message) [] []
    rw [htr, hk out h]; simp
  · intro pre hpre
    rw [extractShapes_eq, extractShapes_eq, tokens, tokens, fragments, fragments,
      pieces_append_of_not_mem _ _ _ hpre]

/-- An instance of C2: two tokens after some leading text, with the sample builder. -/
theorem extractShapes_concat_witness :
    (extractShapes sampleEnv ("see ".toList ++ braces "a+b" ++ braces "c")).result
        = .ok ["a".toList, "b".toList, "c".toList] ∧
    tokens ("see ".toList ++ braces "a+b" ++ braces "c")
        = [("a".toList, ["b".toList]), ("c".toList, [])] ∧
    (extractShapes sampleEnv ("see ".toList ++ braces "a+b" ++ braces "c")).trace
        = (tokens ("see ".toList ++ braces "a+b" ++ braces "c")).map callOf :=
  ⟨rfl, by decide, (extractShapes_concat sampleEnv ("see ".toList ++ braces "a+b" ++ braces "c")).2.1
      ["a".toList, "b".toList, "c".toList] rfl⟩

/-- C3. The builder calls made by `extractShapes` are, in order, those of the
terminated fragments of the message (all of them when extraction succeeds, an
initial run of them otherwise), each with the key equal to the part of the
instruction body before its first `+` (the whole body when it has none) and the
modifiers equal to the remaining `+`-separated pieces: no piece contains a `+`
and joining key and modifiers with `+` gives the body back. The message
`{key+a+b+c}` makes the one call `handleInstruction("key", ["a","b","c"])`. -/
theorem extractShapes_calls {σ τ : Type} (env : Env σ τ) (message : Str) :
    (∃ k, k ≤ ((fragments message).filter terminated).length ∧
        (extractShapes env message).trace
          = (((fragments message).filter terminated).take k).map callOfFragment ∧
        (∀ out, (extractShapes env message).result = .ok out →
          k = ((fragments message).filter terminated).length)) ∧
    (∀ instruction : Str,
        shapeKey instruction = instruction.takeWhile (fun d => d != '+') ∧
        '+' ∉ shapeKey instruction ∧
        (∀ flag ∈ modifierList instruction, '+' ∉ flag) ∧
        ['+'].intercalate (shapeKey instruction :: modifierList instruction) = instruction ∧
        ('+' ∉ instruction → shapeKey instruction = instruction ∧ modifierList instruction = [])) ∧
    (extractShapes env keyABC).trace
        = [.handleInstruction "key".toList ["a".toList, "b".toList, "c".toList]] := by
  refine ⟨?_, ?_, ?_⟩
  · obtain ⟨k, hk, htr, hok⟩ := runTokens_trace env (tokens message) [] []
    rw [← extractShapes_eq] at htr hok
    rw [tokens_eq_map] at hk htr hok
    refine ⟨k, by simpa using hk, ?_, ?_⟩
    · rw [htr]; simp [← List.map_take, callOf, callOfFragment, Function.comp_def]
    · intro out h; simpa using hok out h
  · intro instruction
    refine ⟨rfl, not_mem_takeWhile _ _, ?_, intercalate_pieces _ _, ?_⟩
    · intro flag hflag; exact not_mem_of_mem_pieces _ _ _ hflag
    · intro h
      refine ⟨takeWhile_of_not_mem _ _ h, ?_⟩
      have := pieces_append_of_not_mem '+' instruction [] h
      simpa [modifierList, pieces] using this
  · rw [extractShapes_eq, tokens_keyABC]
    simp only [runTokens]
    cases env.handleInstruction "key".toList ["a".toList, "b".toList, "c".toList] <;> simp

/-- C4. A message without a start marker, the empty message included, yields the
empty sequence without an error and without a builder call. -/
theorem extractShapes_no_marker {σ τ : Type} (env : Env σ τ) (message : Str)
    (h : '{' ∉ message) :
    extractShapes env message = ⟨[], .ok []⟩ := by
  have hf : fragments message = [] := by
    have := pieces_append_of_not_mem '{' message [] h
    simpa [fragments, pieces] using this
  rw [extractShapes_eq, tokens, hf]; rfl

/-- An instance of C4: the empty message and a message of plain text. -/
theorem extractShapes_no_marker_witness :
    '{' ∉ ([] : Str) ∧ '{' ∉ "a+b\x7d c".toList ∧
    extractShapes sampleEnv [] = ⟨[], .ok []⟩ ∧
    extractShapes sampleEnv "a+b\x7d c".toList = ⟨[], .ok []⟩ :=
  ⟨by decide, by decide, extractShapes_no_marker sampleEnv [] (by decide),
    extractShapes_no_marker sampleEnv "a+b\x7d c".toList (by decide)⟩

/-- C5. A fragment without an end marker is skipped: it is a fragment of the
message, it gives no token (whatever the number of `+` in it), and the outcome
of `extractShapes`, result and builder calls alike, is the outcome on the message
with the fragment and its start marker removed. On `a {bad b {valid}` the result
is that of `handleInstruction("valid", [])`, the only call made; a skipped
fragment with twelve `+` raises no limit error. -/
theorem extractShapes_skip_unterminated {σ τ : Type} (env : Env σ τ) (pre frag post : Str)
    (hstart : '{' ∉ frag) (hend : '}' ∉ frag) (hpost : StartsAt '{' post) :
    fragments (pre ++ '{' :: (frag ++ post)) = fragments pre ++ frag :: fragments post ∧
    tokenOf frag = none ∧
    extractShapes env (pre ++ '{' :: (frag ++ post)) = extractShapes env (pre ++ post) ∧
    (extractShapes env badThenValid).result = env.handleInstruction "valid".toList [] ∧
    (extractShapes env badThenValid).trace = [.handleInstruction "valid".toList []] ∧
    (extractShapes env plusesThenValid).result
      = env.handleInstruction "valid".toList ["x".toList] := by
  refine ⟨fragments_insert pre frag post hstart hpost, tokenOf_of_not_mem frag hend, ?_, ?_, ?_, ?_⟩
  · rw [extractShapes_eq, extractShapes_eq, tokens, tokens,
      fragments_insert pre frag post hstart hpost, fragments_append pre post hpost]
    simp [List.filterMap_append, List.filterMap_cons, tokenOf_of_not_mem frag hend]
  · rw [extractShapes_eq, tokens_badThenValid]
    exact (runTokens_single env _ _ (by decide)).1
  · rw [extractShapes_eq, tokens_badThenValid]
    exact (runTokens_single env _ _ (by decide)).2
  · rw [extractShapes_eq, tokens_plusesThenValid]
    exact (runTokens_single env _ _ (by decide)).1

/-- An instance of C5: the fragment `bad b ` of `a {bad b {valid}`. -/
theorem extractShapes_skip_unterminated_witness :
    '{' ∉ "bad b ".toList ∧ '}' ∉ "bad b ".toList ∧ StartsAt '{' (braces "valid") ∧
    extractShapes sampleEnv ("a ".toList ++ '{' :: ("bad b ".toList ++ braces "valid"))
      = extractShapes sampleEnv ("a ".toList ++ braces "valid") :=
  ⟨by decide, by decide, Or.inr ⟨_, rfl⟩,
    (extractShapes_skip_unterminated sampleEnv "a ".toList "bad b ".toList (braces "valid")
      (by decide) (by decide) (Or.inr ⟨_, rfl⟩)).2.2.1⟩

/-- C6. In a fragment with an end marker the instruction body is the text before
the first end marker: for a fragment `b}junk`, with no end marker in `b`, the
body is `b`, the token is the key and modifiers of `b`, and the text `junk`
behind the first end marker, with any `}` and `+` in it, changes neither the
tokens nor the outcome of `extractShapes`. Fragments are scanned one by one:
`{a{b}c}` makes the one call `handleInstruction("b", [])` and returns its result. -/
theorem extractShapes_first_end_marker {σ τ : Type} (env : Env σ τ) (pre b junk post : Str)
    (hstart : '{' ∉ b) (hend : '}' ∉ b) (hjunk : '{' ∉ junk) (hpost : StartsAt '{' post) :
    body (b ++ '}' :: junk) = b ∧
    tokenOf (b ++ '}' :: junk) = some (shapeKey b, modifierList b) ∧
    tokens (pre ++ '{' :: ((b ++ '}' :: junk) ++ post))
      = tokens pre ++ (shapeKey b, modifierList b) :: tokens post ∧
    extractShapes env (pre ++ '{' :: ((b ++ '}' :: junk) ++ post))
      = extractShapes env (pre ++ '{' :: ((b ++ ['}']) ++ post)) ∧
    (extractShapes env nested).result = env.handleInstruction "b".toList [] ∧
    (extractShapes env nested).trace = [.handleInstruction "b".toList []] := by
  have hmem : ∀ rest : Str, '}' ∈ b ++ '}' :: rest := fun rest => by simp
  have htok : ∀ rest : Str, tokenOf (b ++ '}' :: rest) = some (shapeKey b, modifierList b) := by
    intro rest; rw [tokenOf_of_mem _ (hmem rest), body_append b rest hend]
  have hfrag : ∀ rest : Str, '{' ∉ rest → '{' ∉ b ++ '}' :: rest := by
    intro rest hrest hm
    rcases List.mem_append.1 hm with h | h
    · exact hstart h
    · rcases List.mem_cons.1 h with h | h
      · exact absurd h (by decide)
      · exact hrest h
  have htokens : ∀ rest : Str, '{' ∉ rest →
      tokens (pre ++ '{' :: ((b ++ '}' :: rest) ++ post))
        = tokens pre ++ (shapeKey b, modifierList b) :: tokens post := by
    intro rest hrest
    rw [tokens, fragments_insert pre _ post (hfrag rest hrest) hpost]
    simp [List.filterMap_append, List.filterMap_cons, htok rest, tokens]
  refine ⟨body_append b junk hend, htok junk, htokens junk hjunk, ?_, ?_, ?_⟩
  · rw [extractShapes_eq, extractShapes_eq, htokens junk hjunk]
    have := htokens [] (by simp)
    rw [this]
  · rw [extractShapes_eq, tokens_nested]
    exact (runTokens_single env _ _ (by decide)).1
  · rw [extractShapes_eq, tokens_nested]
    exact (runTokens_single env _ _ (by decide)).2

/-- An instance of C6: the fragment `k+m}+x}+y ` before a second token. -/
theorem extractShapes_first_end_marker_witness :
    '{' ∉ "k+m".toList ∧ '}' ∉ "k+m".toList ∧ '{' ∉ "+x\x7d+y ".toList ∧
    StartsAt '{' (braces "z") ∧
    tokens ("say ".toList ++ '{' :: (("k+m".toList ++ '}' :: "+x\x7d+y ".toList) ++ braces "z"))
      = [("k".toList, ["m".toList]), ("z".toList, [])] ∧
    extractShapes sampleEnv
        ("say ".toList ++ '{' :: (("k+m".toList ++ '}' :: "+x\x7d+y ".toList) ++ braces "z"))
      = extractShapes sampleEnv ("say ".toList ++ '{' :: (("k+m".toList ++ ['}']) ++ braces "z")) :=
  ⟨by decide, by decide, by decide, Or.inr ⟨_, rfl⟩, by decide,
    (extractShapes_first_end_marker sampleEnv "say ".toList "k+m".toList "+x\x7d+y ".toList
      (braces "z") (by decide) (by decide) (by decide) (Or.inr ⟨_, rfl⟩)).2.2.2.1⟩

/-! ## The grid compositor -/

theorem renderLoop_ok_iff {σ τ : Type} (env : Env σ τ) (columns : Nat) (shapes : List σ) :
    ∀ (index : Nat) (canvas out : Canvas τ),
      renderLoop env columns index shapes canvas = .ok out
        ↔ ∃ tiles, List.Forall₂ (Renders env) shapes tiles ∧
            out = ⟨canvas.width, canvas.height,
              canvas.draws ++ (tiles.enumFrom index).map (fun p => drawAt columns p.1 p.2)⟩ := by
  induction shapes with
  | nil =>
    intro index canvas out
    simp only [renderLoop, List.forall₂_nil_left_iff]
    constructor
    · intro h; injection h with h; exact ⟨[], rfl, by simp [← h]⟩
    · rintro ⟨tiles, rfl, h⟩; simp [h]
  | cons shape shapes ih =>
    intro index canvas out
    simp only [renderLoop, List.forall₂_cons_left_iff]
    cases hr : env.renderShape shape shapeSize with
    | error err =>
      constructor
      · intro h; cases h
      · rintro ⟨tiles, ⟨t, ts, ht, -, -⟩, -⟩
        rw [Renders, hr] at ht; cases ht
    | ok shapeImage =>
      simp only [ih]
      constructor
      · rintro ⟨tiles, htiles, hout⟩
        exact ⟨shapeImage :: tiles, ⟨shapeImage, tiles, hr, htiles, rfl⟩,
          by simp [hout, Canvas.drawImage, drawAt]⟩
      · rintro ⟨tiles, ⟨t, ts, ht, hts, rfl⟩, hout⟩
        have he : shapeImage = t := by
          rw [Renders, hr] at ht; injection ht
        subst he
        exact ⟨ts, hts, by simp [hout, Canvas.drawImage, drawAt]⟩

theorem renderShapes_ok_iff {σ τ : Type} (env : Env σ τ) (shapes : List σ) (out : Canvas τ) :
    renderShapes env shapes = .ok out
      ↔ ∃ tiles, List.Forall₂ (Renders env) shapes tiles ∧
          out = ⟨imageWidth shapes.length, imageHeight shapes.length,
            tiles.enum.map (fun p => drawAt (columnsCount shapes.length) p.1 p.2)⟩ := by
  unfold renderShapes
  rw [renderLoop_ok_iff]
  simp [createCanvas, List.enum]

theorem exists_tiles {σ τ : Type} (env : Env σ τ) (shapes : List σ)
    (h : ∀ shape ∈ shapes, ∃ tile, env.renderShape shape shapeSize = .ok tile) :
    ∃ tiles, List.Forall₂ (Renders env) shapes tiles := by
  induction shapes with
  | nil => exact ⟨[], List.Forall₂.nil⟩
  | cons shape shapes ih =>
    obtain ⟨tile, ht⟩ := h shape (by simp)
    obtain ⟨tiles, hts⟩ := ih (fun s hs => h s (by simp [hs]))
    exact ⟨tile :: tiles, List.Forall₂.cons ht hts⟩

theorem columnsCount_pos (n : Nat) (h : 1 ≤ n) : 1 ≤ columnsCount n := by
  unfold columnsCount; omega

theorem rowsCount_bounds (n : Nat) (h : 1 ≤ n) :
    (rowsCount n - 1) * columnsCount n < n ∧ n ≤ rowsCount n * columnsCount n ∧
      1 ≤ rowsCount n := by
  have hc := columnsCount_pos n h
  unfold rowsCount
  generalize columnsCount n = c at hc ⊢
  have h1 : (n + c - 1) / c * c ≤ n + c - 1 := Nat.div_mul_le_self _ _
  have h2 : n + c - 1 < c * ((n + c - 1) / c + 1) := Nat.lt_mul_div_succ _ (by omega)
  have h3 : ((n + c - 1) / c - 1) * c = (n + c - 1) / c * c - c := by
    rw [Nat.sub_mul, Nat.one_mul]
  have h4 : c * ((n + c - 1) / c + 1) = (n + c - 1) / c * c + c := by
    rw [Nat.mul_add, Nat.mul_one, Nat.mul_comm]
  have h5 : 1 ≤ (n + c - 1) / c := (Nat.one_le_div_iff (by omega)).2 (by omega)
  have h6 : c ≤ (n + c - 1) / c * c := Nat.le_mul_of_pos_left _ (by omega)
  rw [h3]; rw [h4] at h2
  generalize (n + c - 1) / c * c = m at *
  omega

theorem rowsCount_eq_ceil (n : Nat) (h : 1 ≤ n) :
    rowsCount n = ⌈(n : ℚ) / (columnsCount n : ℚ)⌉₊ := by
  obtain ⟨h1, h2, h3⟩ := rowsCount_bounds n h
  have hc : (0 : ℚ) < (columnsCount n : ℚ) := by
    exact_mod_cast columnsCount_pos n h
  symm
  rw [Nat.ceil_eq_iff (by omega)]
  constructor
  · rw [lt_div_iff₀ hc]; exact_mod_cast h1
  · rw [div_le_iff₀ hc]; exact_mod_cast h2

/-- C7. For a list of `n ≥ 1` shapes, `renderShapes` works with tile size 56,
`columnsCount = min(n, 8)`, `rowsCount = ⌈n / columnsCount⌉`, `imageWidth = 56 *
columnsCount` and `imageHeight = 56 * rowsCount`; the canvas it returns has
these dimensions, and it returns one whenever the renderer renders every shape.
For `n = 10` the values are 8, 2, 448 and 112; for `n = 1` they are 1, 1, 56
and 56. -/
theorem renderShapes_layout {σ τ : Type} (env : Env σ τ) (shapes : List σ)
    (h : 1 ≤ shapes.length) :
    shapeSize = 56 ∧
    columnsCount shapes.length = min shapes.length 8 ∧
    rowsCount shapes.length
      = ⌈(shapes.length : ℚ) / (columnsCount shapes.length : ℚ)⌉₊ ∧
    imageWidth shapes.length = shapeSize * columnsCount shapes.length ∧
    imageHeight shapes.length = shapeSize * rowsCount shapes.length ∧
    (∀ canvas, renderShapes env shapes = .ok canvas →
        canvas.width = imageWidth shapes.length ∧ canvas.height = imageHeight shapes.length) ∧
    ((∀ shape ∈ shapes, ∃ tile, env.renderShape shape shapeSize = .ok tile) →
        ∃ canvas, renderShapes env shapes = .ok canvas) ∧
    (shapes.length = 10 →
        columnsCount shapes.length = 8 ∧ rowsCount shapes.length = 2 ∧
        imageWidth shapes.length = 448 ∧ imageHeight shapes.length = 112) ∧
    (shapes.length = 1 →
        columnsCount shapes.length = 1 ∧ rowsCount shapes.length = 1 ∧
        imageWidth shapes.length = 56 ∧ imageHeight shapes.length = 56) := by
  refine ⟨rfl, rfl, rowsCount_eq_ceil _ h, rfl, rfl, ?_, ?_, ?_, ?_⟩
  · intro canvas hc
    obtain ⟨tiles, -, rfl⟩ := (renderShapes_ok_iff env shapes canvas).1 hc
    exact ⟨rfl, rfl⟩
  · intro hall
    obtain ⟨tiles, htiles⟩ := exists_tiles env shapes hall
    exact ⟨_, (renderShapes_ok_iff env shapes _).2 ⟨tiles, htiles, rfl⟩⟩
  · intro h10; rw [h10]; decide
  · intro h1; rw [h1]; decide

/-- An instance of C7: ten shapes give a canvas of 448 by 112. -/
theorem renderShapes_layout_witness :
    1 ≤ (lettered 10).length ∧
    ∃ canvas, renderShapes sampleEnv (lettered 10) = .ok canvas ∧
      canvas.width = 448 ∧ canvas.height = 112 :=
  ⟨by decide,
    ((renderShapes_layout sampleEnv (lettered 10) (by decide)).2.2.2.2.2.2.1
        (fun _ _ => ⟨_, rfl⟩)).elim
      (fun canvas hc => ⟨canvas, hc,
        (renderShapes_layout sampleEnv (lettered 10) (by decide)).2.2.2.2.2.1 canvas hc⟩)⟩

/-- C8. For a non-empty list of `n` shapes, `renderShapes` returns a canvas
whenever the renderer renders every shape, and the draws on a canvas it returns
are, in order, one per shape: the draw of index `i` is the tile rendered from
`shapes[i]`, at `x = (i mod columnsCount) * 56` and `y = floor(i / columnsCount)
* 56`, so there are exactly `n` draws, in input order and row-major. With
`n = 10`, tile 8 is drawn at `(0, 56)` and tile 9 at `(56, 56)`. -/
theorem renderShapes_draws {σ τ : Type} (env : Env σ τ) (shapes : List σ)
    (_hne : shapes ≠ []) :
    ((∀ shape ∈ shapes, ∃ tile, env.renderShape shape shapeSize = .ok tile) →
        ∃ canvas, renderShapes env shapes = .ok canvas) ∧
    shapeSize = 56 ∧
    (∀ canvas, renderShapes env shapes = .ok canvas →
      canvas.draws.length = shapes.length ∧
      (∃ tiles, List.Forall₂ (Renders env) shapes tiles ∧
          canvas.draws = tiles.enum.map (fun p => drawAt (columnsCount shapes.length) p.1 p.2)) ∧
      (∀ (i : Nat) (hi : i < shapes.length),
          ∃ tile, env.renderShape shapes[i] shapeSize = .ok tile ∧
            canvas.draws[i]? = some (tile,
              (i % columnsCount shapes.length) * shapeSize,
              (i / columnsCount shapes.length) * shapeSize)) ∧
      (shapes.length = 10 →
          ∃ tile8 tile9, canvas.draws[8]? = some (tile8, 0, 56) ∧
            canvas.draws[9]? = some (tile9, 56, 56))) := by
  refine ⟨?_, rfl, ?_⟩
  · intro hall
    obtain ⟨tiles, htiles⟩ := exists_tiles env shapes hall
    exact ⟨_, (renderShapes_ok_iff env shapes _).2 ⟨tiles, htiles, rfl⟩⟩
  intro canvas h
  obtain ⟨tiles, htiles, rfl⟩ := (renderShapes_ok_iff env shapes canvas).1 h
  have hlen : shapes.length = tiles.length := htiles.length_eq
  have hidx : ∀ (i : Nat) (hi : i < shapes.length),
      ∃ tile, env.renderShape shapes[i] shapeSize = .ok tile ∧
        (tiles.enum.map (fun p => drawAt (columnsCount shapes.length) p.1 p.2))[i]?
          = some (tile, (i % columnsCount shapes.length) * shapeSize,
              (i / columnsCount shapes.length) * shapeSize) := by
    intro i hi
    have hi2 : i < tiles.length := hlen ▸ hi
    refine ⟨tiles[i], ?_, ?_⟩
    · exact (List.forall₂_iff_get.1 htiles).2 i hi hi2
    · simp [List.getElem?_enum, List.getElem?_eq_getElem hi2, drawAt]
  refine ⟨by simp [hlen], ⟨tiles, htiles, rfl⟩, hidx, ?_⟩
  intro h10
  obtain ⟨t8, -, h8⟩ := hidx 8 (by omega)
  obtain ⟨t9, -, h9⟩ := hidx 9 (by omega)
  have c8 : columnsCount shapes.length = 8 := by rw [h10]; rfl
  have x8 : (8 % columnsCount shapes.length) * shapeSize = 0 := by rw [c8]; rfl
  have y8 : (8 / columnsCount shapes.length) * shapeSize = 56 := by rw [c8]; rfl
  have x9 : (9 % columnsCount shapes.length) * shapeSize = 56 := by rw [c8]; rfl
  have y9 : (9 / columnsCount shapes.length) * shapeSize = 56 := by rw [c8]; rfl
  rw [x8, y8] at h8
  rw [x9, y9] at h9
  exact ⟨t8, t9, h8, h9⟩

/-- An instance of C8: the draws for ten shapes, all ten listed. -/
theorem renderShapes_draws_witness :
    lettered 10 ≠ [] ∧
    renderShapes sampleEnv (lettered 10)
      = .ok ⟨448, 112,
          [(("a".toList, 56), 0, 0), (("b".toList, 56), 56, 0), (("c".toList, 56), 112, 0),
           (("d".toList, 56), 168, 0), (("e".toList, 56), 224, 0), (("f".toList, 56), 280, 0),
           (("g".toList, 56), 336, 0), (("h".toList, 56), 392, 0), (("i".toList, 56), 0, 56),
           (("j".toList, 56), 56, 56)]⟩ ∧
    (∃ tile8 tile9,
      (⟨448, 112,
          [(("a".toList, 56), 0, 0), (("b".toList, 56), 56, 0), (("c".toList, 56), 112, 0),
           (("d".toList, 56), 168, 0), (("e".toList, 56), 224, 0), (("f".toList, 56), 280, 0),
           (("g".toList, 56), 336, 0), (("h".toList, 56), 392, 0), (("i".toList, 56), 0, 56),
           (("j".toList, 56), 56, 56)]⟩ : Canvas (Str × Nat)).draws[8]? = some (tile8, 0, 56) ∧
      (⟨448, 112,
          [(("a".toList, 56), 0, 0), (("b".toList, 56), 56, 0), (("c".toList, 56), 112, 0),
           (("d".toList, 56), 168, 0), (("e".toList, 56), 224, 0), (("f".toList, 56), 280, 0),
           (("g".toList, 56), 336, 0), (("h".toList, 56), 392, 0), (("i".toList, 56), 0, 56),
           (("j".toList, 56), 56, 56)]⟩ : Canvas (Str × Nat)).draws[9]? = some (tile9, 56, 56)) :=
  ⟨by decide, rfl,
    ((renderShapes_draws sampleEnv (lettered 10) (by decide)).2.2 _ rfl).2.2.2 rfl⟩

/-! ## The command -/

theorem extractShapes_trace_calls {σ τ : Type} (env : Env σ τ) (message : Str)
    (ev : Event σ τ) (h : ev ∈ (extractShapes env message).trace) :
    ∃ shortKey flags, ev = .handleInstruction shortKey flags := by
  obtain ⟨k, -, htr, -⟩ := runTokens_trace env (tokens message) [] []
  rw [← extractShapes_eq] at htr
  rw [htr] at h
  simp only [List.nil_append, List.mem_map] at h
  obtain ⟨tok, -, rfl⟩ := h
  exact ⟨tok.1, tok.2, rfl⟩

theorem execute_of_extracted {σ τ : Type} (env : Env σ τ) (msg : Message)
    (roles : List String) (all : List σ)
    (hdirect : isDirectCall env msg = false)
    (hmember : msg.member = some roles)
    (hrole : hasAccess env roles = true)
    (hext : (extractShapes env msg.content).result = .ok all) :
    (slice all 0 64 = [] →
        execute env msg = ⟨(extractShapes env msg.content).trace, .ok ()⟩) ∧
    (slice all 0 64 ≠ [] → ∀ err, renderShapes env (slice all 0 64) = .error err →
        execute env msg
          = ⟨(extractShapes env msg.content).trace ++ [.renderShapes (slice all 0 64)],
              .error err⟩) ∧
    (slice all 0 64 ≠ [] → ∀ image, renderShapes env (slice all 0 64) = .ok image →
        execute env msg
          = ⟨(extractShapes env msg.content).trace
                ++ [.renderShapes (slice all 0 64), .send image],
              env.send image⟩) := by
  refine ⟨?_, ?_, ?_⟩
  · intro h0
    simp [execute, hdirect, hmember, hrole, hext, h0]
  · intro h0 err herr
    simp [execute, hdirect, hmember, hrole, hext, h0, herr]
  · intro h0 image himage
    simp [execute, hdirect, hmember, hrole, hext, h0, himage]

theorem execute_trace_cases {σ τ : Type} (env : Env σ τ) (msg : Message) :
    (execute env msg).trace = [] ∨
    (execute env msg).trace = (extractShapes env msg.content).trace ∨
    ∃ all, (extractShapes env msg.content).result = .ok all ∧ slice all 0 64 ≠ [] ∧
      ((execute env msg).trace
          = (extractShapes env msg.content).trace ++ [.renderShapes (slice all 0 64)] ∨
       ∃ image, (execute env msg).trace
          = (extractShapes env msg.content).trace
              ++ [.renderShapes (slice all 0 64), .send image]) := by
  by_cases hdirect : isDirectCall env msg = true
  · left; simp [execute, hdirect]
  · have hdirect : isDirectCall env msg = false := by
      simpa using hdirect
    cases hmember : msg.member with
    | none => left; simp [execute, hdirect, hmember]
    | some roles =>
      by_cases hrole : hasAccess env roles = true
      · cases hext : (extractShapes env msg.content).result with
        | error err => right; left; simp [execute, hdirect, hmember, hrole, hext]
        | ok all =>
          obtain ⟨h1, h2, h3⟩ := execute_of_extracted env msg roles all hdirect hmember hrole hext
          by_cases h0 : slice all 0 64 = []
          · right; left; rw [h1 h0]
          · right; right
            refine ⟨all, rfl, h0, ?_⟩
            cases hr : renderShapes env (slice all 0 64) with
            | error err => left; rw [h2 h0 err hr]
            | ok image => right; exact ⟨image, by rw [h3 h0 image hr]⟩
      · left
        have hrole : hasAccess env roles = false := by
          simpa using hrole
        simp [execute, hdirect, hmember, hrole]

theorem length_slice_le {α : Type} (xs : List α) (k : Nat) : (slice xs 0 (k : Int)).length ≤ k := by
  rw [slice_zero]; simp

theorem slice_cap {α : Type} (all : List α) : slice all 0 64 = all.take 64 := by
  have h := slice_zero all 64
  exact_mod_cast h

theorem renderShapes_not_mem_extract {σ τ : Type} (env : Env σ τ) (message : Str)
    (shapes : List σ) : Event.renderShapes shapes ∉ (extractShapes env message).trace := by
  intro h
  obtain ⟨shortKey, flags, he⟩ := extractShapes_trace_calls env message _ h
  cases he

theorem send_not_mem_extract {σ τ : Type} (env : Env σ τ) (message : Str)
    (image : Canvas τ) : Event.send image ∉ (extractShapes env message).trace := by
  intro h
  obtain ⟨shortKey, flags, he⟩ := extractShapes_trace_calls env message _ h
  cases he

/-- C9. When `execute` has extracted the sequence `all`, the sequence it goes on
with is `all.slice(0, 64)`: the first `min(|all|, 64)` descriptors of `all` in
their order. It is the only argument `renderShapes` is called with, it is passed
on whenever `all` is not empty, and the outcome of `execute` is then that of
rendering and sending it, so a longer `all` raises no error of its own. Of 100
descriptors exactly the first 64 are kept. -/
theorem execute_cap {σ τ : Type} (env : Env σ τ) (msg : Message)
    (roles : List String) (all : List σ)
    (hdirect : isDirectCall env msg = false)
    (hmember : msg.member = some roles)
    (hrole : hasAccess env roles = true)
    (hext : (extractShapes env msg.content).result = .ok all) :
    slice all 0 64 = all.take 64 ∧
    (all.take 64).length = min all.length 64 ∧
    all.take 64 ++ all.drop 64 = all ∧
    (∀ shapes, Event.renderShapes shapes ∈ (execute env msg).trace → shapes = all.take 64) ∧
    (all ≠ [] → Event.renderShapes (all.take 64) ∈ (execute env msg).trace) ∧
    (all ≠ [] → ∀ image, renderShapes env (all.take 64) = .ok image →
        execute env msg
          = ⟨(extractShapes env msg.content).trace
                ++ [.renderShapes (all.take 64), .send image],
              env.send image⟩) ∧
    (all.length = 100 → (all.take 64).length = 64) := by
  obtain ⟨h1, h2, h3⟩ := execute_of_extracted env msg roles all hdirect hmember hrole hext
  rw [slice_cap] at h1 h2 h3
  have hne : all ≠ [] → all.take 64 ≠ [] := by
    intro ha; cases all with
    | nil => exact absurd rfl ha
    | cons a as => simp
  refine ⟨slice_cap all, by simp [Nat.min_comm], List.take_append_drop 64 all, ?_, ?_, ?_, ?_⟩
  · intro shapes hmem
    by_cases h0 : all.take 64 = []
    · rw [h1 h0] at hmem
      exact absurd hmem (renderShapes_not_mem_extract env _ _)
    · cases hr : renderShapes env (all.take 64) with
      | error err =>
        rw [h2 h0 err hr] at hmem
        rcases List.mem_append.1 hmem with hm | hm
        · exact absurd hm (renderShapes_not_mem_extract env _ _)
        · simpa using hm
      | ok image =>
        rw [h3 h0 image hr] at hmem
        rcases List.mem_append.1 hmem with hm | hm
        · exact absurd hm (renderShapes_not_mem_extract env _ _)
        · simpa using hm
  · intro ha
    cases hr : renderShapes env (all.take 64) with
    | error err => rw [h2 (hne ha) err hr]; simp
    | ok image => rw [h3 (hne ha) image hr]; simp
  · intro ha image hr; exact h3 (hne ha) image hr
  · intro h100; simp [h100]

/-- An instance of C9: a message of a hundred descriptors, from a member with
access. -/
theorem execute_cap_witness :
    isDirectCall sampleEnv (fromViewer hundred) = false ∧
    (fromViewer hundred).member = some ["viewer"] ∧
    hasAccess sampleEnv ["viewer"] = true ∧
    (extractShapes sampleEnv (fromViewer hundred).content).result = .ok hundredShapes ∧
    hundredShapes.length = 100 ∧
    (hundredShapes.take 64).length = 64 ∧
    Event.renderShapes (hundredShapes.take 64) ∈ (execute sampleEnv (fromViewer hundred)).trace :=
  ⟨rfl, rfl, by decide, rfl, by decide, by decide,
    (execute_cap sampleEnv (fromViewer hundred) ["viewer"] hundredShapes rfl rfl (by decide)
      rfl).2.2.2.2.1 (by decide)⟩

/-- C10. A tile count of zero never reaches the compositor. Every call of
`renderShapes` made by `execute` has between 1 and 64 shapes. For a message whose
capped extraction is empty, `execute` calls neither `renderShapes` nor `send`,
and once past the guards of lines 72 to 76 (no direct call, a guild member) it
returns normally. -/
theorem execute_rejects_empty {σ τ : Type} (env : Env σ τ) (msg : Message) :
    (∀ shapes, Event.renderShapes shapes ∈ (execute env msg).trace →
        1 ≤ shapes.length ∧ shapes.length ≤ 64) ∧
    (∀ all, (extractShapes env msg.content).result = .ok all → slice all 0 64 = [] →
        (∀ shapes, Event.renderShapes shapes ∉ (execute env msg).trace) ∧
        (∀ image, Event.send image ∉ (execute env msg).trace) ∧
        (isDirectCall env msg = false → msg.member ≠ none →
          (execute env msg).result = .ok ())) := by
  have hcases := execute_trace_cases env msg
  constructor
  · intro shapes hmem
    rcases hcases with h | h | ⟨all, -, h0, h | ⟨image, h⟩⟩
    · rw [h] at hmem; cases hmem
    · rw [h] at hmem; exact absurd hmem (renderShapes_not_mem_extract env _ _)
    · rw [h] at hmem
      rcases List.mem_append.1 hmem with hm | hm
      · exact absurd hm (renderShapes_not_mem_extract env _ _)
      · have he : shapes = slice all 0 64 := by simpa using hm
        subst he
        refine ⟨?_, length_slice_le all 64⟩
        cases hs : slice all 0 64 with
        | nil => exact absurd hs h0
        | cons a as => simp
    · rw [h] at hmem
      rcases List.mem_append.1 hmem with hm | hm
      · exact absurd hm (renderShapes_not_mem_extract env _ _)
      · have he : shapes = slice all 0 64 := by simpa using hm
        subst he
        refine ⟨?_, length_slice_le all 64⟩
        cases hs : slice all 0 64 with
        | nil => exact absurd hs h0
        | cons a as => simp
  · intro all hext hempty
    have htrace : (execute env msg).trace = [] ∨
        (execute env msg).trace = (extractShapes env msg.content).trace := by
      rcases hcases with h | h | ⟨all2, hext2, h0, -⟩
      · exact Or.inl h
      · exact Or.inr h
      · rw [hext] at hext2
        injection hext2 with he
        subst he
        exact absurd hempty h0
    refine ⟨?_, ?_, ?_⟩
    · intro shapes hmem
      rcases htrace with h | h
      · rw [h] at hmem; cases hmem
      · rw [h] at hmem; exact renderShapes_not_mem_extract env _ _ hmem
    · intro image hmem
      rcases htrace with h | h
      · rw [h] at hmem; cases hmem
      · rw [h] at hmem; exact send_not_mem_extract env _ _ hmem
    · intro hdirect hmember
      cases hm : msg.member with
      | none => exact absurd hm hmember
      | some roles =>
        by_cases hrole : hasAccess env roles = true
        · rw [(execute_of_extracted env msg roles all hdirect hm hrole hext).1 hempty]
        · have hrole : hasAccess env roles = false := by simpa using hrole
          simp [execute, hdirect, hm, hrole]

/-- An instance of C10: a message with no terminated token, from a member with
access, is answered by a normal return and an empty trace. -/
theorem execute_rejects_empty_witness :
    (extractShapes sampleEnv (fromViewer unterminatedOnly).content).result = .ok [] ∧
    slice ([] : List Str) 0 64 = [] ∧
    isDirectCall sampleEnv (fromViewer unterminatedOnly) = false ∧
    (fromViewer unterminatedOnly).member ≠ none ∧
    (execute sampleEnv (fromViewer unterminatedOnly)).result = .ok () :=
  ⟨rfl, rfl, rfl, by simp [fromViewer],
    ((execute_rejects_empty sampleEnv (fromViewer unterminatedOnly)).2 [] rfl rfl).2.2 rfl
      (by simp [fromViewer])⟩

/-! ## The grid: helper lemmas -/

theorem renderLoop_error {σ τ : Type} (env : Env σ τ) (columns : Nat) (shapes : List σ) :
    ∀ (index : Nat) (canvas : Canvas τ) (err : Error),
      renderLoop env columns index shapes canvas = .error err →
        ∃ shape ∈ shapes, env.renderShape shape shapeSize = .error err := by
  induction shapes with
  | nil => intro index canvas err h; simp [renderLoop] at h
  | cons shape shapes ih =>
    intro index canvas err h
    simp only [renderLoop] at h
    cases hr : env.renderShape shape shapeSize with
    | error e =>
      rw [hr] at h
      injection h with h
      exact ⟨shape, by simp, by rw [← h]; exact hr⟩
    | ok tile =>
      rw [hr] at h
      obtain ⟨s2, hs2, he⟩ := ih _ _ _ h
      exact ⟨s2, by simp [hs2], he⟩

theorem renderShapes_getElem? {σ τ : Type} (env : Env σ τ) (shapes : List σ)
    (canvas : Canvas τ) (h : renderShapes env shapes = .ok canvas)
    (i : Nat) (tile : τ) (x y : Nat) (hd : canvas.draws[i]? = some (tile, x, y)) :
    i < shapes.length ∧ x = (i % columnsCount shapes.length) * shapeSize ∧
      y = (i / columnsCount shapes.length) * shapeSize := by
  obtain ⟨tiles, htiles, rfl⟩ := (renderShapes_ok_iff env shapes canvas).1 h
  have hlen : shapes.length = tiles.length := htiles.length_eq
  simp only [List.getElem?_map, List.getElem?_enum] at hd
  cases ht : tiles[i]? with
  | none => rw [ht] at hd; simp at hd
  | some a =>
    have hi : i < tiles.length := (List.getElem?_eq_some.1 ht).1
    rw [ht] at hd
    simp only [Option.map_some', drawAt, Option.some.injEq, Prod.mk.injEq] at hd
    exact ⟨hlen ▸ hi, hd.2.1.symm, hd.2.2.symm⟩

theorem renderShapes_length {σ τ : Type} (env : Env σ τ) (shapes : List σ)
    (canvas : Canvas τ) (h : renderShapes env shapes = .ok canvas) :
    canvas.draws.length = shapes.length ∧ canvas.width = imageWidth shapes.length ∧
      canvas.height = imageHeight shapes.length := by
  obtain ⟨tiles, htiles, rfl⟩ := (renderShapes_ok_iff env shapes canvas).1 h
  simp [htiles.length_eq]

theorem renderShapes_total {σ τ : Type} (env : Env σ τ) (shapes : List σ)
    (hall : ∀ shape ∈ shapes, ∃ tile, env.renderShape shape shapeSize = .ok tile) :
    ∃ canvas, renderShapes env shapes = .ok canvas := by
  obtain ⟨tiles, htiles⟩ := exists_tiles env shapes hall
  exact ⟨_, (renderShapes_ok_iff env shapes _).2 ⟨tiles, htiles, rfl⟩⟩

theorem cell_inside (n i : Nat) (hi : i < n) :
    (i % columnsCount n) * shapeSize + shapeSize ≤ imageWidth n ∧
    (i / columnsCount n) * shapeSize + shapeSize ≤ imageHeight n := by
  have hn : 1 ≤ n := by omega
  have hc := columnsCount_pos n hn
  obtain ⟨-, hup, -⟩ := rowsCount_bounds n hn
  have hx : i % columnsCount n < columnsCount n := Nat.mod_lt _ (by omega)
  have hy : i / columnsCount n < rowsCount n :=
    (Nat.div_lt_iff_lt_mul (by omega)).2 (by omega)
  unfold imageWidth imageHeight shapeSize
  constructor <;> omega

theorem cell_injective (c i j : Nat) (hmod : i % c = j % c) (hdiv : i / c = j / c) : i = j := by
  rw [← Nat.div_add_mod i c, ← Nat.div_add_mod j c, hmod, hdiv]

theorem cell_index (c row column : Nat) (hcol : column < c) :
    (row * c + column) % c = column ∧ (row * c + column) / c = row := by
  have hc : 0 < c := by omega
  constructor
  · rw [Nat.add_comm, Nat.add_mul_mod_self_right, Nat.mod_eq_of_lt hcol]
  · rw [Nat.add_comm, Nat.add_mul_div_right _ _ hc, Nat.div_eq_of_lt hcol, Nat.zero_add]

/-! ## The grid compositor, continued -/

/-- C11. The layout computation of `renderShapes` has no failure of its own. For a
non-empty list of `n` shapes `columnsCount = min(n, 8)` is at least 1, so the
divisor of `n / columnsCount`, `i mod columnsCount` and `i / columnsCount` is
never zero (quotient and remainder recompose `i`, the remainder is below
`columnsCount`), and `rowsCount` is at least 1. `renderShapes` returns a canvas
whenever the renderer renders every shape, and an error it throws is an error
the renderer threw for one of the shapes. -/
theorem renderShapes_no_failure {σ τ : Type} (env : Env σ τ) (shapes : List σ)
    (hne : shapes ≠ []) :
    columnsCount shapes.length = min shapes.length 8 ∧
    1 ≤ columnsCount shapes.length ∧
    columnsCount shapes.length ≠ 0 ∧
    1 ≤ rowsCount shapes.length ∧
    (∀ i, i < shapes.length →
        i % columnsCount shapes.length < columnsCount shapes.length ∧
        columnsCount shapes.length * (i / columnsCount shapes.length)
          + i % columnsCount shapes.length = i) ∧
    ((∀ shape ∈ shapes, ∃ tile, env.renderShape shape shapeSize = .ok tile) →
        ∃ canvas, renderShapes env shapes = .ok canvas) ∧
    (∀ err, renderShapes env shapes = .error err →
        ∃ shape ∈ shapes, env.renderShape shape shapeSize = .error err) := by
  have hn : 1 ≤ shapes.length := by
    cases shapes with
    | nil => exact absurd rfl hne
    | cons a as => simp
  have hc := columnsCount_pos shapes.length hn
  refine ⟨rfl, hc, by omega, (rowsCount_bounds _ hn).2.2, ?_, renderShapes_total env shapes, ?_⟩
  · intro i _
    exact ⟨Nat.mod_lt _ (by omega), Nat.div_add_mod _ _⟩
  · intro err h
    exact renderLoop_error env _ shapes _ _ err h

/-- An instance of C11: ten shapes, eight columns, two rows, a canvas returned. -/
theorem renderShapes_no_failure_witness :
    lettered 10 ≠ [] ∧ columnsCount (lettered 10).length = 8 ∧
    rowsCount (lettered 10).length = 2 ∧
    ∃ canvas, renderShapes sampleEnv (lettered 10) = .ok canvas :=
  ⟨by decide, by decide, by decide,
    (renderShapes_no_failure sampleEnv (lettered 10) (by decide)).2.2.2.2.2.1
      (fun _ _ => ⟨_, rfl⟩)⟩

/-- C12. For a non-empty list of `n` shapes, a canvas returned by `renderShapes`
carries exactly `n` draws, each at the cell of an index below `n`, and no draw
at a cell `(row, column)`, `column < columnsCount`, with
`row * columnsCount + column ≥ n`: the cells behind the last tile stay untouched.
A canvas is returned whenever the renderer renders every shape. -/
theorem renderShapes_untouched {σ τ : Type} (env : Env σ τ) (shapes : List σ)
    (_hne : shapes ≠ []) :
    ((∀ shape ∈ shapes, ∃ tile, env.renderShape shape shapeSize = .ok tile) →
        ∃ canvas, renderShapes env shapes = .ok canvas) ∧
    (∀ canvas, renderShapes env shapes = .ok canvas →
      canvas.draws.length = shapes.length ∧
      (∀ draw ∈ canvas.draws, ∃ i, i < shapes.length ∧
          draw.2 = ((i % columnsCount shapes.length) * shapeSize,
                    (i / columnsCount shapes.length) * shapeSize)) ∧
      (∀ row column, column < columnsCount shapes.length →
          shapes.length ≤ row * columnsCount shapes.length + column →
          ∀ draw ∈ canvas.draws, draw.2 ≠ (column * shapeSize, row * shapeSize))) := by
  refine ⟨renderShapes_total env shapes, ?_⟩
  intro canvas h
  have hcell : ∀ draw ∈ canvas.draws, ∃ i, i < shapes.length ∧
      draw.2 = ((i % columnsCount shapes.length) * shapeSize,
                (i / columnsCount shapes.length) * shapeSize) := by
    intro draw hmem
    obtain ⟨i, hi⟩ := List.mem_iff_getElem?.1 hmem
    obtain ⟨tile, x, y⟩ := draw
    obtain ⟨h1, h2, h3⟩ := renderShapes_getElem? env shapes canvas h i tile x y hi
    exact ⟨i, h1, by simp [h2, h3]⟩
  refine ⟨(renderShapes_length env shapes canvas h).1, hcell, ?_⟩
  intro row column hcol hbeyond draw hmem heq
  obtain ⟨i, hi, hd⟩ := hcell draw hmem
  rw [hd] at heq
  simp only [Prod.mk.injEq, shapeSize] at heq
  obtain ⟨hm, hdv⟩ := cell_index (columnsCount shapes.length) row column hcol
  have e1 : i % columnsCount shapes.length
      = (row * columnsCount shapes.length + column) % columnsCount shapes.length := by omega
  have e2 : i / columnsCount shapes.length
      = (row * columnsCount shapes.length + column) / columnsCount shapes.length := by omega
  have := cell_injective _ _ _ e1 e2
  omega

/-- An instance of C12: with ten shapes, the last cell of the second row is not
drawn on. -/
theorem renderShapes_untouched_witness :
    lettered 10 ≠ [] ∧
    ∃ canvas, renderShapes sampleEnv (lettered 10) = .ok canvas ∧
      canvas.draws.length = 10 ∧
      ∀ draw ∈ canvas.draws, draw.2 ≠ (7 * shapeSize, 1 * shapeSize) :=
  ⟨by decide, _, rfl,
    ((renderShapes_untouched sampleEnv (lettered 10) (by decide)).2 _ rfl).1,
    ((renderShapes_untouched sampleEnv (lettered 10) (by decide)).2 _ rfl).2.2 1 7
      (by decide) (by decide)⟩

/-- C15. For a non-empty list of `n` shapes and a canvas returned by
`renderShapes`, the draw of every index `i < n` lies inside the canvas
(`x + 56 ≤ width`, `y + 56 ≤ height`), and the draws of two different indices
are at different offsets: no tile is clipped, no two tiles share a cell. -/
theorem renderShapes_cells {σ τ : Type} (env : Env σ τ) (shapes : List σ)
    (_hne : shapes ≠ []) :
    ((∀ shape ∈ shapes, ∃ tile, env.renderShape shape shapeSize = .ok tile) →
        ∃ canvas, renderShapes env shapes = .ok canvas) ∧
    (∀ canvas, renderShapes env shapes = .ok canvas →
      canvas.width = imageWidth shapes.length ∧ canvas.height = imageHeight shapes.length ∧
      (∀ i, i < shapes.length → ∃ tile x y, canvas.draws[i]? = some (tile, x, y)) ∧
      (∀ (i : Nat) (tile : τ) (x y : Nat), canvas.draws[i]? = some (tile, x, y) →
          x + shapeSize ≤ canvas.width ∧ y + shapeSize ≤ canvas.height) ∧
      (∀ (i j : Nat) (tile1 : τ) (x1 y1 : Nat) (tile2 : τ) (x2 y2 : Nat),
          canvas.draws[i]? = some (tile1, x1, y1) → canvas.draws[j]? = some (tile2, x2, y2) →
          i ≠ j → (x1, y1) ≠ (x2, y2))) := by
  refine ⟨renderShapes_total env shapes, ?_⟩
  intro canvas h
  obtain ⟨hlen, hw, hh⟩ := renderShapes_length env shapes canvas h
  refine ⟨hw, hh, ?_, ?_, ?_⟩
  · intro i hi
    have hi2 : i < canvas.draws.length := by omega
    exact ⟨canvas.draws[i].1, canvas.draws[i].2.1, canvas.draws[i].2.2,
      List.getElem?_eq_getElem hi2⟩
  · intro i tile x y hd
    obtain ⟨hi, hx, hy⟩ := renderShapes_getElem? env shapes canvas h i tile x y hd
    obtain ⟨c1, c2⟩ := cell_inside shapes.length i hi
    rw [hw, hh, hx, hy]
    exact ⟨c1, c2⟩
  · intro i j tile1 x1 y1 tile2 x2 y2 hd1 hd2 hij heq
    obtain ⟨-, hx1, hy1⟩ := renderShapes_getElem? env shapes canvas h i tile1 x1 y1 hd1
    obtain ⟨-, hx2, hy2⟩ := renderShapes_getElem? env shapes canvas h j tile2 x2 y2 hd2
    simp only [Prod.mk.injEq] at heq
    rw [hx1, hx2, hy1, hy2] at heq
    simp only [shapeSize] at heq
    exact hij (cell_injective (columnsCount shapes.length) i j (by omega) (by omega))

/-- An instance of C15: with ten shapes, the tiles of indices 1 and 9, both in the
second column, lie inside the canvas. -/
theorem renderShapes_cells_witness :
    lettered 10 ≠ [] ∧
    ∃ canvas : Canvas (Str × Nat), renderShapes sampleEnv (lettered 10) = .ok canvas ∧
      canvas.draws[1]? = some (("b".toList, 56), 56, 0) ∧
      canvas.draws[9]? = some (("j".toList, 56), 56, 56) ∧
      56 + shapeSize ≤ canvas.width ∧ 56 + shapeSize ≤ canvas.height :=
  ⟨by decide, _, rfl, rfl, rfl,
    ((renderShapes_cells sampleEnv (lettered 10) (by decide)).2 _ rfl).2.2.2.1 9
      ("j".toList, 56) 56 56 rfl⟩

theorem renderShapes_offsets {σ τ : Type} (env : Env σ τ) (shapes : List σ)
    (canvas : Canvas τ) (h : renderShapes env shapes = .ok canvas) :
    canvas.offsets
      = (List.range shapes.length).map (cellOffset (columnsCount shapes.length)) := by
  obtain ⟨tiles, htiles, rfl⟩ := (renderShapes_ok_iff env shapes canvas).1 h
  rw [htiles.length_eq, ← List.enum_map_fst tiles]
  simp only [Canvas.offsets, List.map_map]
  apply List.map_congr_left
  intro p _
  rfl

theorem renderLoop_congr {σ τ : Type} (env1 env2 : Env σ τ) (columns : Nat)
    (shapes : List σ)
    (hsame : ∀ shape ∈ shapes, env1.renderShape shape shapeSize = env2.renderShape shape shapeSize) :
    ∀ (index : Nat) (canvas : Canvas τ),
      renderLoop env1 columns index shapes canvas = renderLoop env2 columns index shapes canvas := by
  induction shapes with
  | nil => intro index canvas; rfl
  | cons shape shapes ih =>
    intro index canvas
    simp only [renderLoop]
    rw [← hsame shape (by simp)]
    cases env1.renderShape shape shapeSize with
    | error err => rfl
    | ok tile => exact ih (fun s hs => hsame s (by simp [hs])) _ _

theorem rowsCount_le_of_le (n r : Nat) (h : 1 ≤ n) (hr : n ≤ r * columnsCount n) :
    rowsCount n ≤ r := by
  obtain ⟨h1, -, h3⟩ := rowsCount_bounds n h
  have : (rowsCount n - 1) * columnsCount n < r * columnsCount n := by omega
  have := Nat.lt_of_mul_lt_mul_right this
  omega

theorem layout_capped (n : Nat) (h1 : 1 ≤ n) (h64 : n ≤ 64) :
    columnsCount n ≤ 8 ∧ rowsCount n ≤ 8 ∧ imageWidth n ≤ 448 ∧ imageHeight n ≤ 448 ∧
    (imageWidth n = 448 ↔ 8 ≤ n) ∧ (imageHeight n = 448 ↔ 57 ≤ n) := by
  interval_cases n <;> decide

/-- C16. For `n ≥ 1` shapes the row count of `renderShapes` (the height of its
canvas is 56 times it) is the least number of rows of `columnsCount` cells that
holds all tiles: `(rowsCount - 1) * columnsCount < n ≤ rowsCount * columnsCount`,
and no smaller row count holds `n` tiles. So the final row holds at least one
tile, fewer than `columnsCount` cells stay empty, and for `n ≤ 8` the grid is
one full row: `columnsCount = n`, `rowsCount = 1`, no empty cell. -/
theorem rowsCount_least {σ τ : Type} (env : Env σ τ) (shapes : List σ)
    (hn : 1 ≤ shapes.length) :
    (∀ canvas, renderShapes env shapes = .ok canvas →
        canvas.width = shapeSize * columnsCount shapes.length ∧
        canvas.height = shapeSize * rowsCount shapes.length) ∧
    (rowsCount shapes.length - 1) * columnsCount shapes.length < shapes.length ∧
    shapes.length ≤ rowsCount shapes.length * columnsCount shapes.length ∧
    (∀ r, shapes.length ≤ r * columnsCount shapes.length → rowsCount shapes.length ≤ r) ∧
    1 ≤ shapes.length - (rowsCount shapes.length - 1) * columnsCount shapes.length ∧
    rowsCount shapes.length * columnsCount shapes.length - shapes.length
      < columnsCount shapes.length ∧
    (shapes.length ≤ 8 →
        columnsCount shapes.length = shapes.length ∧ rowsCount shapes.length = 1 ∧
        rowsCount shapes.length * columnsCount shapes.length = shapes.length) := by
  obtain ⟨h1, h2, h3⟩ := rowsCount_bounds shapes.length hn
  have hc := columnsCount_pos shapes.length hn
  have hsplit : rowsCount shapes.length * columnsCount shapes.length
      = (rowsCount shapes.length - 1) * columnsCount shapes.length
          + columnsCount shapes.length := by
    rw [Nat.sub_mul, Nat.one_mul]
    have : columnsCount shapes.length
        ≤ rowsCount shapes.length * columnsCount shapes.length :=
      Nat.le_mul_of_pos_left _ (by omega)
    omega
  refine ⟨?_, h1, h2, fun r hr => rowsCount_le_of_le _ r hn hr, by omega, by omega, ?_⟩
  · intro canvas h
    obtain ⟨-, hw, hh⟩ := renderShapes_length env shapes canvas h
    exact ⟨hw, hh⟩
  · intro h8
    have hcn : columnsCount shapes.length = shapes.length := by
      unfold columnsCount; omega
    have hr1 : rowsCount shapes.length = 1 := by
      have := rowsCount_le_of_le shapes.length 1 hn (by rw [hcn]; omega)
      omega
    exact ⟨hcn, hr1, by rw [hr1, hcn]; omega⟩

/-- An instance of C16: ten shapes need two rows of eight, six cells stay empty. -/
theorem rowsCount_least_witness :
    1 ≤ (lettered 10).length ∧ rowsCount (lettered 10).length = 2 ∧
    columnsCount (lettered 10).length = 8 ∧
    rowsCount (lettered 10).length * columnsCount (lettered 10).length - (lettered 10).length
      < columnsCount (lettered 10).length :=
  ⟨by decide, by decide, by decide,
    (rowsCount_least sampleEnv (lettered 10) (by decide)).2.2.2.2.2.1⟩

/-- C13. The layout of `renderShapes` depends on the number of shapes only, and its
output on the ordered shapes and what the renderer returns for them. For two
lists of the same length, whatever the shapes and the renderers, the width, the
height and the sequence of draw offsets of the returned canvases are the same,
the offsets being those of the cells `0, 1, ..., n - 1`. Two renderers that agree
on the shapes of a list give the same outcome for it, draws and all; so does
one renderer, a function of shape and tile size, called twice. -/
theorem renderShapes_deterministic {σ τ : Type} (env1 env2 : Env σ τ)
    (shapes1 shapes2 : List σ) (hlen : shapes1.length = shapes2.length) :
    imageWidth shapes1.length = imageWidth shapes2.length ∧
    imageHeight shapes1.length = imageHeight shapes2.length ∧
    (∀ canvas1 canvas2, renderShapes env1 shapes1 = .ok canvas1 →
        renderShapes env2 shapes2 = .ok canvas2 →
        canvas1.width = canvas2.width ∧ canvas1.height = canvas2.height ∧
        canvas1.offsets = canvas2.offsets ∧
        canvas1.offsets
          = (List.range shapes1.length).map (cellOffset (columnsCount shapes1.length))) ∧
    ((∀ shape ∈ shapes1,
          env1.renderShape shape shapeSize = env2.renderShape shape shapeSize) →
        renderShapes env1 shapes1 = renderShapes env2 shapes1) ∧
    (shapes1 = shapes2 → renderShapes env1 shapes1 = renderShapes env1 shapes2) := by
  refine ⟨by rw [hlen], by rw [hlen], ?_, ?_, ?_⟩
  · intro canvas1 canvas2 h1 h2
    obtain ⟨-, hw1, hh1⟩ := renderShapes_length env1 shapes1 canvas1 h1
    obtain ⟨-, hw2, hh2⟩ := renderShapes_length env2 shapes2 canvas2 h2
    have ho1 := renderShapes_offsets env1 shapes1 canvas1 h1
    have ho2 := renderShapes_offsets env2 shapes2 canvas2 h2
    refine ⟨by rw [hw1, hw2, hlen], by rw [hh1, hh2, hlen], ?_, ho1⟩
    rw [ho1, ho2, hlen]
  · intro hsame
    exact renderLoop_congr env1 env2 _ shapes1 hsame _ _
  · intro he; rw [he]

/-- An instance of C13: two lists of three shapes give the same offsets. -/
theorem renderShapes_deterministic_witness :
    (lettered 3).length = ["x".toList, "y".toList, "x".toList].length ∧
    ∃ canvas1 canvas2 : Canvas (Str × Nat),
      renderShapes sampleEnv (lettered 3) = .ok canvas1 ∧
      renderShapes sampleEnv ["x".toList, "y".toList, "x".toList] = .ok canvas2 ∧
      canvas1.offsets = canvas2.offsets ∧ canvas1.offsets = [(0, 0), (56, 0), (112, 0)] :=
  ⟨by decide, _, _, rfl, rfl,
    ((renderShapes_deterministic sampleEnv sampleEnv (lettered 3)
        ["x".toList, "y".toList, "x".toList] (by decide)).2.2.1 _ _ rfl rfl).2.2.1,
    rfl⟩

/-! ## The command, continued -/

theorem execute_render_cases {σ τ : Type} (env : Env σ τ) (msg : Message) (shapes : List σ)
    (hmem : Event.renderShapes shapes ∈ (execute env msg).trace) :
    ∃ all, (extractShapes env msg.content).result = .ok all ∧
      shapes = slice all 0 64 ∧ shapes ≠ [] := by
  rcases execute_trace_cases env msg with h | h | ⟨all, hext, h0, h | ⟨image, h⟩⟩
  · rw [h] at hmem; cases hmem
  · rw [h] at hmem; exact absurd hmem (renderShapes_not_mem_extract env _ _)
  · rw [h] at hmem
    rcases List.mem_append.1 hmem with hm | hm
    · exact absurd hm (renderShapes_not_mem_extract env _ _)
    · have he : shapes = slice all 0 64 := by simpa using hm
      exact ⟨all, hext, he, he ▸ h0⟩
  · rw [h] at hmem
    rcases List.mem_append.1 hmem with hm | hm
    · exact absurd hm (renderShapes_not_mem_extract env _ _)
    · have he : shapes = slice all 0 64 := by simpa using hm
      exact ⟨all, hext, he, he ▸ h0⟩

theorem execute_send_cases {σ τ : Type} (env : Env σ τ) (msg : Message) (image : Canvas τ)
    (hmem : Event.send image ∈ (execute env msg).trace) :
    ∃ all, (extractShapes env msg.content).result = .ok all ∧ slice all 0 64 ≠ [] ∧
      renderShapes env (slice all 0 64) = .ok image ∧
      (execute env msg).result = env.send image ∧
      Event.renderShapes (slice all 0 64) ∈ (execute env msg).trace := by
  by_cases hdirect : isDirectCall env msg = true
  · simp [execute, hdirect] at hmem
  · have hdirect : isDirectCall env msg = false := by simpa using hdirect
    cases hmember : msg.member with
    | none => simp [execute, hdirect, hmember] at hmem
    | some roles =>
      by_cases hrole : hasAccess env roles = true
      · cases hext : (extractShapes env msg.content).result with
        | error err =>
          have htr : (execute env msg).trace = (extractShapes env msg.content).trace := by
            simp [execute, hdirect, hmember, hrole, hext]
          rw [htr] at hmem
          exact absurd hmem (send_not_mem_extract env _ _)
        | ok all =>
          obtain ⟨h1, h2, h3⟩ := execute_of_extracted env msg roles all hdirect hmember hrole hext
          by_cases h0 : slice all 0 64 = []
          · rw [h1 h0] at hmem
            exact absurd hmem (send_not_mem_extract env _ _)
          · cases hr : renderShapes env (slice all 0 64) with
            | error err =>
              rw [h2 h0 err hr] at hmem
              rcases List.mem_append.1 hmem with hm | hm
              · exact absurd hm (send_not_mem_extract env _ _)
              · simp at hm
            | ok image2 =>
              rw [h3 h0 image2 hr] at hmem ⊢
              rcases List.mem_append.1 hmem with hm | hm
              · exact absurd hm (send_not_mem_extract env _ _)
              · have he : image = image2 := by simpa using hm
                subst he
                exact ⟨all, rfl, h0, hr, rfl, by simp⟩
      · have hrole : hasAccess env roles = false := by simpa using hrole
        simp [execute, hdirect, hmember, hrole] at hmem

/-- C17. Through `execute` the grid never exceeds eight by eight. Every list that
`execute` passes to `renderShapes` has `columnsCount ≤ 8` and `rowsCount ≤ 8`,
hence `imageWidth ≤ 448` and `imageHeight ≤ 448`, with `imageWidth = 448`
exactly when the list has at least 8 shapes and `imageHeight = 448` exactly
when it has at least 57. Every image `execute` sends is the canvas returned for
such a list and has these dimensions. -/
theorem execute_image_bounds {σ τ : Type} (env : Env σ τ) (msg : Message) :
    (∀ shapes, Event.renderShapes shapes ∈ (execute env msg).trace →
        shapes.length ≤ 64 ∧
        columnsCount shapes.length ≤ 8 ∧ rowsCount shapes.length ≤ 8 ∧
        imageWidth shapes.length ≤ 448 ∧ imageHeight shapes.length ≤ 448 ∧
        (imageWidth shapes.length = 448 ↔ 8 ≤ shapes.length) ∧
        (imageHeight shapes.length = 448 ↔ 57 ≤ shapes.length)) ∧
    (∀ image, Event.send image ∈ (execute env msg).trace →
        ∃ shapes, Event.renderShapes shapes ∈ (execute env msg).trace ∧
          renderShapes env shapes = .ok image ∧
          image.width = imageWidth shapes.length ∧
          image.height = imageHeight shapes.length ∧
          image.width ≤ 448 ∧ image.height ≤ 448 ∧
          (image.width = 448 ↔ 8 ≤ shapes.length) ∧
          (image.height = 448 ↔ 57 ≤ shapes.length)) := by
  have hbounds : ∀ shapes, Event.renderShapes shapes ∈ (execute env msg).trace →
      1 ≤ shapes.length ∧ shapes.length ≤ 64 := by
    intro shapes hmem
    obtain ⟨all, -, he, hne⟩ := execute_render_cases env msg shapes hmem
    refine ⟨?_, he ▸ length_slice_le all 64⟩
    cases shapes with
    | nil => exact absurd rfl hne
    | cons a as => simp
  constructor
  · intro shapes hmem
    obtain ⟨h1, h64⟩ := hbounds shapes hmem
    exact ⟨h64, layout_capped shapes.length h1 h64⟩
  · intro image hmem
    obtain ⟨all, -, -, hr, -, hrm⟩ := execute_send_cases env msg image hmem
    obtain ⟨h1, h64⟩ := hbounds _ hrm
    obtain ⟨-, hw, hh⟩ := renderShapes_length env _ image hr
    obtain ⟨-, -, b3, b4, b5, b6⟩ := layout_capped _ h1 h64
    exact ⟨_, hrm, hr, hw, hh, hw ▸ b3, hh ▸ b4, hw ▸ b5, hh ▸ b6⟩

/-- An instance of C17: the hundred descriptors of `hundred` are capped to 64 and
sent as an image of 448 by 448. -/
theorem execute_image_bounds_witness :
    ∃ image, Event.send image ∈ (execute sampleEnv (fromViewer hundred)).trace ∧
      image.width = 448 ∧ image.height = 448 ∧ image.width ≤ 448 ∧ image.height ≤ 448 := by
  obtain ⟨image, hr⟩ : ∃ image, renderShapes sampleEnv (slice hundredShapes 0 64) = .ok image :=
    renderShapes_total sampleEnv _ (fun _ _ => ⟨_, rfl⟩)
  have hex := (execute_of_extracted sampleEnv (fromViewer hundred) ["viewer"] hundredShapes
    rfl rfl (by decide) rfl).2.2 (by decide) image hr
  have hmem : Event.send image ∈ (execute sampleEnv (fromViewer hundred)).trace := by
    rw [hex]; simp
  obtain ⟨-, hw, hh⟩ := renderShapes_length sampleEnv _ image hr
  obtain ⟨shapes, -, -, -, -, b1, b2, -, -⟩ :=
    (execute_image_bounds sampleEnv (fromViewer hundred)).2 image hmem
  exact ⟨image, hmem, hw, hh, b1, b2⟩

theorem watcher_eq {σ τ : Type} (env : Env σ τ) (msg : Message) :
    watcher env msg
      = if msg.authorBot then ⟨[], .ok ()⟩
        else if !msg.content.contains '{' then ⟨[], .ok ()⟩
        else
          match (execute env msg).result with
          | .ok _ => ⟨(execute env msg).trace, .ok ()⟩
          | .error err => ⟨(execute env msg).trace ++ [.log err], .ok ()⟩ := rfl

theorem watcher_result {σ τ : Type} (env : Env σ τ) (msg : Message) :
    (watcher env msg).result = .ok () := by
  rw [watcher_eq]
  split
  · rfl
  · split
    · rfl
    · split <;> rfl

theorem watcher_send_mem {σ τ : Type} (env : Env σ τ) (msg : Message) (image : Canvas τ)
    (hmem : Event.send image ∈ (watcher env msg).trace) :
    Event.send image ∈ (execute env msg).trace := by
  rw [watcher_eq] at hmem
  split at hmem
  · cases hmem
  · split at hmem
    · cases hmem
    · split at hmem
      · exact hmem
      · rcases List.mem_append.1 hmem with hm | hm
        · exact hm
        · simp at hm

/-- C14. The watcher swallows errors. For every message `watcher` completes
normally. When `execute` throws, an attempt to send appears among the watcher's
calls only if the error is the one `channel.send` itself threw for that image;
so nothing is sent when `execute` throws the direct-call error, when the
extraction throws (modifier limit or builder), or when rendering throws, and
nothing at all when `channel.send` does not fail. For a message that reaches
`execute`, the thrown error is logged after the calls of `execute`. -/
theorem watcher_swallows {σ τ : Type} (env : Env σ τ) (msg : Message) :
    (watcher env msg).result = .ok () ∧
    (∀ err, (execute env msg).result = .error err →
        ∀ image, Event.send image ∈ (watcher env msg).trace → env.send image = .error err) ∧
    (isDirectCall env msg = true →
        (execute env msg).result = .error directCall ∧
        ∀ image, Event.send image ∉ (watcher env msg).trace) ∧
    (∀ err, (extractShapes env msg.content).result = .error err →
        ∀ image, Event.send image ∉ (watcher env msg).trace) ∧
    (∀ all err, (extractShapes env msg.content).result = .ok all →
        renderShapes env (slice all 0 64) = .error err →
        ∀ image, Event.send image ∉ (watcher env msg).trace) ∧
    ((∀ image, env.send image = .ok ()) →
        ∀ err, (execute env msg).result = .error err →
        ∀ image, Event.send image ∉ (watcher env msg).trace) ∧
    (msg.authorBot = false → msg.content.contains '{' = true →
        ∀ err, (execute env msg).result = .error err →
        (watcher env msg).trace = (execute env msg).trace ++ [.log err]) := by
  refine ⟨watcher_result env msg, ?_, ?_, ?_, ?_, ?_, ?_⟩
  · intro err herr image hmem
    obtain ⟨all, -, -, -, hres, -⟩ :=
      execute_send_cases env msg image (watcher_send_mem env msg image hmem)
    rw [← hres, herr]
  · intro hdirect
    have hex : execute env msg = ⟨[], .error directCall⟩ := by simp [execute, hdirect]
    refine ⟨by rw [hex], ?_⟩
    intro image hmem
    have := watcher_send_mem env msg image hmem
    rw [hex] at this
    cases this
  · intro err hext image hmem
    obtain ⟨all, hok, -⟩ :=
      execute_send_cases env msg image (watcher_send_mem env msg image hmem)
    rw [hext] at hok
    cases hok
  · intro all err hext hr image hmem
    obtain ⟨all2, hok, -, hr2, -⟩ :=
      execute_send_cases env msg image (watcher_send_mem env msg image hmem)
    rw [hext] at hok
    injection hok with he
    subst he
    rw [hr] at hr2
    cases hr2
  · intro hsend err herr image hmem
    obtain ⟨all, -, -, -, hres, -⟩ :=
      execute_send_cases env msg image (watcher_send_mem env msg image hmem)
    rw [herr, hsend image] at hres
    cases hres
  · intro hbot hcontains err herr
    have hc : '{' ∈ msg.content := by simpa using hcontains
    simp [watcher_eq, hbot, hc, herr]

/-- An instance of C14: the modifier-limit error of `execute` is logged, not
propagated, and nothing is sent. -/
theorem watcher_swallows_witness :
    (execute sampleEnv (fromViewer elevenModifiers)).result = .error limitOfModifiers ∧
    (watcher sampleEnv (fromViewer elevenModifiers)).result = .ok () ∧
    (watcher sampleEnv (fromViewer elevenModifiers)).trace
      = [.handleInstruction "v".toList [], .log limitOfModifiers] ∧
    ∀ image, Event.send image ∉ (watcher sampleEnv (fromViewer elevenModifiers)).trace :=
  ⟨rfl, (watcher_swallows sampleEnv (fromViewer elevenModifiers)).1, rfl,
    (watcher_swallows sampleEnv (fromViewer elevenModifiers)).2.2.2.1 limitOfModifiers rfl⟩

/-! ## Modifier counts and the direct call -/

theorem pieces_length (sep : Char) (s : Str) : (pieces sep s).length = s.count sep := by
  induction s with
  | nil => rfl
  | cons c cs ih =>
    by_cases hc : c = sep
    · simp [pieces, hc, ih]
    · simp [pieces, hc, ih, List.count_cons]

theorem tokens_single (b rest : Str) (hstart : '{' ∉ b) (hend : '}' ∉ b)
    (hrest : '{' ∉ rest) :
    tokens ('{' :: (b ++ '}' :: rest)) = [(shapeKey b, modifierList b)] := by
  have hfrag : '{' ∉ b ++ '}' :: rest := by
    intro hm
    rcases List.mem_append.1 hm with h | h
    · exact hstart h
    · rcases List.mem_cons.1 h with h | h
      · exact absurd h (by decide)
      · exact hrest h
  have hf := fragments_insert [] (b ++ '}' :: rest) [] hfrag (Or.inl rfl)
  simp only [List.nil_append, List.append_nil] at hf
  have htok : tokenOf (b ++ '}' :: rest) = some (shapeKey b, modifierList b) := by
    rw [tokenOf_of_mem _ (by simp), body_append b rest hend]
  rw [tokens, hf]
  simp [fragments, pieces, htok]

theorem startsWith_iff (s pre : Str) :
    startsWith s pre = true ↔ ∃ rest, s = pre ++ rest := by
  induction pre generalizing s with
  | nil => simp [startsWith]
  | cons p ps ih =>
    cases s with
    | nil => simp [startsWith]
    | cons c cs =>
      simp only [startsWith, Bool.and_eq_true, beq_iff_eq, ih, List.cons_append,
        List.cons.injEq]
      constructor
      · rintro ⟨rfl, rest, rfl⟩; exact ⟨rest, rfl, rfl⟩
      · rintro ⟨rest, rfl, rfl⟩; exact ⟨rfl, rest, rfl⟩

/-- C18. The number of modifiers of a token is the number of `+` in its
instruction body: `split` keeps empty pieces, and the key may be empty (`{}`
gives the key `""` and no modifier). With a builder that never fails,
`extractShapes` throws the modifier-limit error exactly when the body of some
terminated fragment holds 11 or more `+`; a single token is rejected, with no
builder call, when its body holds 11 or more `+` and is handed to the builder
when it holds at most 10. `{k+++++++++++}`, eleven `+` and eleven empty
modifiers, is rejected. -/
theorem modifiers_count {σ τ : Type} (env : Env σ τ) (message : Str) :
    (∀ instruction : Str,
        (modifierList instruction).length = instruction.count '+' ∧
        ((split instruction '+').drop 1).length = instruction.count '+') ∧
    (∀ fragment ∈ fragments message, terminated fragment = true →
        tokenOf fragment = some (shapeKey (body fragment), modifierList (body fragment)) ∧
        (modifierList (body fragment)).length = (body fragment).count '+') ∧
    ((∀ shortKey flags, ∃ built, env.handleInstruction shortKey flags = .ok built) →
        ((extractShapes env message).result = .error limitOfModifiers
          ↔ ∃ fragment ∈ fragments message,
              terminated fragment = true ∧ 11 ≤ (body fragment).count '+')) ∧
    (∀ b rest : Str, '{' ∉ b → '}' ∉ b → '{' ∉ rest → 11 ≤ b.count '+' →
        extractShapes env ('{' :: (b ++ '}' :: rest)) = ⟨[], .error limitOfModifiers⟩) ∧
    (∀ b rest : Str, '{' ∉ b → '}' ∉ b → '{' ∉ rest → b.count '+' ≤ 10 →
        (extractShapes env ('{' :: (b ++ '}' :: rest))).result
          = env.handleInstruction (shapeKey b) (modifierList b) ∧
        (extractShapes env ('{' :: (b ++ '}' :: rest))).trace
          = [.handleInstruction (shapeKey b) (modifierList b)]) ∧
    tokens (braces "") = [([], [])] ∧
    modifierList "a++b".toList = [[], "b".toList] ∧
    modifierList "k+++++++++++".toList = List.replicate 11 [] ∧
    extractShapes env elevenPluses = ⟨[], .error limitOfModifiers⟩ := by
  have hcount : ∀ instruction : Str,
      (modifierList instruction).length = instruction.count '+' :=
    fun instruction => pieces_length '+' instruction
  have hreject : ∀ b rest : Str, '{' ∉ b → '}' ∉ b → '{' ∉ rest → 11 ≤ b.count '+' →
      extractShapes env ('{' :: (b ++ '}' :: rest)) = ⟨[], .error limitOfModifiers⟩ := by
    intro b rest h1 h2 h3 h11
    have hl : (modifierList b).length > 10 := by rw [hcount]; omega
    rw [extractShapes_eq, tokens_single b rest h1 h2 h3]
    simp [runTokens, hl]
  refine ⟨?_, ?_, ?_, hreject, ?_, by decide, by decide, by decide, ?_⟩
  · intro instruction
    refine ⟨hcount instruction, ?_⟩
    rw [split_eq, List.drop_one, List.tail_cons]
    exact pieces_length '+' instruction
  · intro fragment _ hterm
    have hmem : '}' ∈ fragment := by simpa [terminated] using hterm
    exact ⟨tokenOf_of_mem fragment hmem, hcount _⟩
  · intro total
    rw [extractShapes_eq, (runTokens_limit_iff env total (tokens message) [] []).1,
      tokens_eq_map]
    constructor
    · rintro ⟨tok, htok, hlen⟩
      obtain ⟨fragment, hf, rfl⟩ := List.mem_map.1 htok
      obtain ⟨hfm, hterm⟩ := List.mem_filter.1 hf
      refine ⟨fragment, hfm, hterm, ?_⟩
      rw [← hcount]; exact hlen
    · rintro ⟨fragment, hfm, hterm, h11⟩
      refine ⟨_, List.mem_map.2 ⟨fragment, List.mem_filter.2 ⟨hfm, hterm⟩, rfl⟩, ?_⟩
      show 10 < (modifierList (body fragment)).length
      rw [hcount]; exact h11
  · intro b rest h1 h2 h3 h10
    rw [extractShapes_eq, tokens_single b rest h1 h2 h3]
    exact runTokens_single env _ _ (by rw [hcount]; exact h10)
  · exact hreject "k+++++++++++".toList [] (by decide) (by decide) (by decide) (by decide)

/-- An instance of C18: with the sample builder, ten `+` are accepted and give ten
empty modifiers, eleven are rejected. -/
theorem modifiers_count_witness :
    (extractShapes sampleEnv (braces "k++++++++++")).result
      = .ok ("k".toList :: List.replicate 10 []) ∧
    ((extractShapes sampleEnv elevenPluses).result = .error limitOfModifiers
      ↔ ∃ fragment ∈ fragments elevenPluses,
          terminated fragment = true ∧ 11 ≤ (body fragment).count '+') :=
  ⟨rfl, (modifiers_count sampleEnv elevenPluses).2.2.1 (fun _ _ => ⟨_, rfl⟩)⟩

/-- C19. A direct call is refused first. For every message whose lower-cased
content starts with `sbe:viewer`, `execute` throws the "You are not supposed to
directly call this command" error and has made no call by then: no builder call,
no rendering, nothing sent. This holds whatever the roles of the caller (or
their absence) and whatever follows in the content. -/
theorem execute_direct_call {σ τ : Type} (env : Env σ τ) (msg : Message)
    (h : ∃ rest, env.toLowerCase msg.content = "sbe:viewer".toList ++ rest) :
    isDirectCall env msg = true ∧
    execute env msg = ⟨[], .error directCall⟩ ∧
    directCall = ⟨"Error", "You are not supposed to directly call this command"⟩ ∧
    (∀ (authorBot : Bool) (member : Option (List String)),
        execute env ⟨msg.content, authorBot, member⟩ = ⟨[], .error directCall⟩) := by
  have hd : startsWith (env.toLowerCase msg.content) "sbe:viewer".toList = true :=
    (startsWith_iff _ _).2 h
  refine ⟨hd, ?_, rfl, ?_⟩
  · have : isDirectCall env msg = true := hd
    simp [execute, this]
  · intro authorBot member
    have : isDirectCall env ⟨msg.content, authorBot, member⟩ = true := hd
    simp [execute, this]

/-- An instance of C19: `SBE:Viewer {a}` from outside a guild. -/
theorem execute_direct_call_witness :
    (∃ rest, sampleEnv.toLowerCase directMessage.content = "sbe:viewer".toList ++ rest) ∧
    execute sampleEnv directMessage = ⟨[], .error directCall⟩ ∧
    execute sampleEnv (fromViewer directMessage.content) = ⟨[], .error directCall⟩ :=
  ⟨⟨" ".toList ++ braces "a", by decide⟩,
    (execute_direct_call sampleEnv directMessage ⟨" ".toList ++ braces "a", by decide⟩).2.1,
    (execute_direct_call sampleEnv directMessage
      ⟨" ".toList ++ braces "a", by decide⟩).2.2.2 false (some ["viewer"])⟩

end Viewer
